import Mathlib

/-!
Verification of the generic `sync.Map`-style concurrent cache found in the
`cache` package of this repository (type `Cache[K comparable, E any]` and its
equality-restricted variant `ComparableCache[K, E comparable]`).

The embedding is a sequential shallow embedding of the Go code:

* a Go `*entry[E]` pointer is modelled as an index into a heap
  `slots : Nat -> Slot V`; `next` is the allocation counter, so a fresh
  entry receives the index `next` and `next` is incremented;
* the atomic pointer inside an entry (`nil` / `expunged` / boxed value) is
  the inductive type `Slot`;
* the atomically-swappable `read` field (`atomic.Pointer[readOnly]`, which
  may be the nil pointer on a zero-value `Cache`) is `Option (ReadOnly K)`;
* the Go maps `readOnly.m` and `Cache.dirty` are association lists
  `List (K × Nat)` of key / slot-index pairs (`dirty` is `Option`-wrapped
  because the Go dirty map may be nil);
* the mutex is not represented: execution is sequential, one whole
  operation after another, so every critical section runs atomically and a
  compare-and-swap retry loop always terminates on its first iteration
  (the re-reads that the Go code performs after acquiring the mutex are
  kept in the translation; they simply re-observe the same state);
* the zero value of the Go element type `E` is `default` of an
  `Inhabited` instance;
* `ComparableCache` embeds `Cache` and overrides `Swap` / `LoadOrStore`
  only to allocate `comparableEntry` cells (a newtype of `entry` with the
  same pointer states), which is observationally identical, so one model
  with a `DecidableEq V` instance covers both types; `CompareAndSwap` and
  `CompareAndDelete` exist only on `ComparableCache` and use that
  instance for the Go `==` / `!=` on `E`.
-/

set_option maxHeartbeats 1600000
set_option linter.unusedSectionVars false

namespace GoCache

/-- State of one entry's atomic pointer `entry.p`: nil, the expunged
sentinel, or a boxed value. -/
inductive Slot (V : Type) where
  | absent
  | expunged
  | value (v : V)
deriving DecidableEq

/-- `readOnly[K, E]`: an immutable pair of a key-to-slot mapping and the
`amended` flag. -/
structure ReadOnly (K : Type) where
  m : List (K × Nat)
  amended : Bool
deriving DecidableEq

/-- The `Cache[K, E]` state: the atomically-loadable read pointer (nil on a
zero value), the dirty map (nil or materialized), the miss counter, and the
heap of entry cells with its allocation counter. -/
structure Cache (K V : Type) where
  read : Option (ReadOnly K)
  dirty : Option (List (K × Nat))
  misses : Nat
  slots : Nat → Slot V
  next : Nat

variable {K V : Type} [DecidableEq K] [DecidableEq V] [Inhabited V]

/-- The zero value of `Cache`: nil read pointer, nil dirty map, zero
misses, empty heap. -/
def emptyCache : Cache K V :=
  ⟨none, none, 0, fun _ => Slot.absent, 0⟩

/-- Go map lookup `m[key]` on an association list. -/
def mfind : List (K × Nat) → K → Option Nat
  | [], _ => none
  | (k, a) :: t, key => if key = k then some a else mfind t key

/-- Go map assignment `m[key] = a`: replace the binding if present,
otherwise append it. -/
def minsert : List (K × Nat) → K → Nat → List (K × Nat)
  | [], key, a => [(key, a)]
  | (k, b) :: t, key, a =>
    if key = k then (k, a) :: t else (k, b) :: minsert t key a

/-- Go map deletion `delete(m, key)`: remove every binding of `key`. -/
def merase : List (K × Nat) → K → List (K × Nat)
  | [], _ => []
  | (k, b) :: t, key =>
    if k = key then merase t key else (k, b) :: merase t key

/-- Read the heap cell of slot `i` (dereference the entry pointer). -/
def getSlot (c : Cache K V) (i : Nat) : Slot V := c.slots i

/-- Write the heap cell of slot `i`. -/
def setSlot (c : Cache K V) (i : Nat) (s : Slot V) : Cache K V :=
  { c with slots := fun j => if j = i then s else c.slots j }

/-- Allocate a fresh entry cell holding `s`; returns its index
(`newEntry` / `newComparableEntry` in the source). -/
def allocSlot (c : Cache K V) (s : Slot V) : Nat × Cache K V :=
  (c.next,
   { c with slots := fun j => if j = c.next then s else c.slots j,
            next := c.next + 1 })

/-- `Cache.loadReadOnly`: the read pointer, or the zero `readOnly` when the
pointer is nil. -/
def loadReadOnly (c : Cache K V) : ReadOnly K :=
  c.read.getD ⟨[], false⟩

/-- The mapping of the current read snapshot. -/
def readM (c : Cache K V) : List (K × Nat) := (loadReadOnly c).m

/-- The `amended` flag of the current read snapshot. -/
def readAmended (c : Cache K V) : Bool := (loadReadOnly c).amended

/-- `entry.load`: returns `(value, ok)`, with the zero value when the
pointer is nil or expunged. -/
def entryLoad (s : Slot V) : V × Bool :=
  match s with
  | Slot.value v => (v, true)
  | _ => (default, false)

/-- `entry.trySwap`: `none` when the entry is expunged (and the entry is
left unchanged); otherwise `some (old, new-slot)` where `old` is the
previous pointer (`none` encodes nil) and the slot now holds the value. -/
def trySwap (s : Slot V) (a : V) : Option (Option V × Slot V) :=
  match s with
  | Slot.expunged => none
  | Slot.absent => some (none, Slot.value a)
  | Slot.value v => some (some v, Slot.value a)

/-- `entry.tryLoadOrStore`: returns `((actual, loaded, ok), new-slot)`. -/
def tryLoadOrStore (s : Slot V) (a : V) : (V × Bool × Bool) × Slot V :=
  match s with
  | Slot.expunged => ((default, false, false), Slot.expunged)
  | Slot.value v => ((v, true, true), Slot.value v)
  | Slot.absent => ((a, false, true), Slot.value a)

/-- `comparableEntry.tryCompareAndSwap`: succeeds only on a boxed value
equal to `old`. -/
def tryCompareAndSwap (s : Slot V) (old nw : V) : Bool × Slot V :=
  match s with
  | Slot.absent => (false, Slot.absent)
  | Slot.expunged => (false, Slot.expunged)
  | Slot.value v => if v = old then (true, Slot.value nw) else (false, Slot.value v)

/-- `entry.delete`: swap a boxed value to nil and return it. -/
def entryDelete (s : Slot V) : (V × Bool) × Slot V :=
  match s with
  | Slot.absent => ((default, false), Slot.absent)
  | Slot.expunged => ((default, false), Slot.expunged)
  | Slot.value v => ((v, true), Slot.absent)

/-- `entry.unexpungeLocked`: CAS expunged -> nil; reports whether the entry
was expunged. -/
def unexpungeLocked (s : Slot V) : Bool × Slot V :=
  match s with
  | Slot.expunged => (true, Slot.absent)
  | s => (false, s)

/-- `entry.swapLocked`: unconditional pointer swap; returns the previous
slot content. The source documents that the entry is known not to be
expunged at every call site. -/
def swapLocked (s : Slot V) (a : V) : Slot V × Slot V :=
  (s, Slot.value a)

/-- The caller-side nil check `if v := e.swapLocked(&value); v != nil`
applied to the returned pointer: nil yields `(zero, false)`; a boxed value
is dereferenced. Dereferencing the expunged sentinel is unspecified in the
source (it never happens because of `swapLocked`'s precondition); it is
modelled as the zero value with `loaded = true` since the sentinel pointer
is non-nil. -/
def derefNonNil (s : Slot V) : V × Bool :=
  match s with
  | Slot.absent => (default, false)
  | Slot.expunged => (default, true)
  | Slot.value v => (v, true)

/-- `entry.tryExpungeLocked`: CAS nil -> expunged; reports whether the
entry ends expunged. -/
def tryExpungeLocked (s : Slot V) : Bool × Slot V :=
  match s with
  | Slot.absent => (true, Slot.expunged)
  | Slot.expunged => (true, Slot.expunged)
  | Slot.value v => (false, Slot.value v)

/-- The Go `len(c.dirty)` (0 for a nil map). -/
def dirtySize (c : Cache K V) : Nat := (c.dirty.getD []).length

/-- `Cache.missLocked`: count a slow-path miss and promote the dirty map to
the read snapshot once the counter reaches the dirty map's size. -/
def missLocked (c : Cache K V) : Cache K V :=
  let c1 : Cache K V := { c with misses := c.misses + 1 }
  if c1.misses < dirtySize c1 then c1
  else { c1 with read := some ⟨c1.dirty.getD [], false⟩, dirty := none, misses := 0 }

/-- The loop body of `Cache.dirtyLocked`: walk the read snapshot's
mapping, expunge entries whose pointer is nil, and collect the
non-expunged ones for the fresh dirty map. -/
def dirtyLoop (c : Cache K V) : List (K × Nat) → List (K × Nat) × Cache K V
  | [] => ([], c)
  | (k, i) :: t =>
    let r := tryExpungeLocked (getSlot c i)
    let c1 := setSlot c i r.2
    let p := dirtyLoop c1 t
    (if r.1 then p.1 else (k, i) :: p.1, p.2)

/-- `Cache.dirtyLocked`: materialize the dirty map from the read snapshot
when it is nil. -/
def dirtyLocked (c : Cache K V) : Cache K V :=
  match c.dirty with
  | some _ => c
  | none =>
    let p := dirtyLoop c (readM c)
    { p.2 with dirty := some p.1 }

/-- The branch shared by the slow paths of `Swap` and `LoadOrStore` when
the key's entry exists in the read snapshot: un-expunge it if needed and,
in that case, register it into the dirty map. -/
def unexpungeTail (c : Cache K V) (key : K) (i : Nat) : Cache K V :=
  let u := unexpungeLocked (getSlot c i)
  let c1 := setSlot c i u.2
  if u.1 then { c1 with dirty := some (minsert (c1.dirty.getD []) key i) }
  else c1

/-- The branch shared by the slow paths of `Swap` and `LoadOrStore` when
the key is in neither the read snapshot nor the dirty map: materialize the
dirty map if needed, mark the snapshot amended, and insert a fresh
entry. -/
def storeNewKeyLocked (c : Cache K V) (key : K) (value : V) : Cache K V :=
  let c1 :=
    if readAmended c = false then
      let cd := dirtyLocked c
      { cd with read := some ⟨readM c, true⟩ }
    else c
  let a := allocSlot c1 (Slot.value value)
  { a.2 with dirty := some (minsert (a.2.dirty.getD []) key a.1) }

/-- `Cache.Load`: returns `(value, ok)` and the post-state. -/
def Load (c : Cache K V) (key : K) : (V × Bool) × Cache K V :=
  match mfind (readM c) key with
  | some i => (entryLoad (getSlot c i), c)
  | none =>
    if readAmended c then
      -- mutex acquired; the Go code re-loads the read pointer and
      -- re-checks, guarding against a concurrent promotion
      match mfind (readM c) key with
      | some i => (entryLoad (getSlot c i), c)
      | none =>
        if readAmended c then
          match mfind (c.dirty.getD []) key with
          | some i =>
            let c1 := missLocked c
            (entryLoad (getSlot c1 i), c1)
          | none =>
            let c1 := missLocked c
            ((default, false), c1)
        else ((default, false), c)
    else ((default, false), c)

/-- The mutex-guarded slow path of `Cache.Swap`. -/
def swapSlow (c : Cache K V) (key : K) (value : V) : (V × Bool) × Cache K V :=
  match mfind (readM c) key with
  | some i =>
    let c2 := unexpungeTail c key i
    let sw := swapLocked (getSlot c2 i) value
    let c3 := setSlot c2 i sw.2
    (derefNonNil sw.1, c3)
  | none =>
    match mfind (c.dirty.getD []) key with
    | some i =>
      let sw := swapLocked (getSlot c i) value
      let c1 := setSlot c i sw.2
      (derefNonNil sw.1, c1)
    | none =>
      ((default, false), storeNewKeyLocked c key value)

/-- `Cache.Swap`: returns `(previous, loaded)` and the post-state. The
fast path swaps through an entry already published in the read snapshot;
it falls through to the slow path when the entry is expunged or the key is
not in the snapshot. -/
def Swap (c : Cache K V) (key : K) (value : V) : (V × Bool) × Cache K V :=
  match mfind (readM c) key with
  | some i =>
    match trySwap (getSlot c i) value with
    | some r =>
      let c1 := setSlot c i r.2
      (match r.1 with
       | some v => ((v, true), c1)
       | none => ((default, false), c1))
    | none => swapSlow c key value
  | none => swapSlow c key value

/-- `Cache.Store`: `Swap` with the result discarded. -/
def Store (c : Cache K V) (key : K) (value : V) : Cache K V :=
  (Swap c key value).2

/-- The mutex-guarded slow path of `Cache.LoadOrStore`. -/
def loadOrStoreSlow (c : Cache K V) (key : K) (value : V) :
    (V × Bool) × Cache K V :=
  match mfind (readM c) key with
  | some i =>
    let c2 := unexpungeTail c key i
    let r := tryLoadOrStore (getSlot c2 i) value
    let c3 := setSlot c2 i r.2
    ((r.1.1, r.1.2.1), c3)
  | none =>
    match mfind (c.dirty.getD []) key with
    | some i =>
      let r := tryLoadOrStore (getSlot c i) value
      let c1 := setSlot c i r.2
      let c2 := missLocked c1
      ((r.1.1, r.1.2.1), c2)
    | none =>
      ((value, false), storeNewKeyLocked c key value)

/-- `Cache.LoadOrStore`: returns `(actual, loaded)` and the post-state. -/
def LoadOrStore (c : Cache K V) (key : K) (value : V) :
    (V × Bool) × Cache K V :=
  match mfind (readM c) key with
  | some i =>
    let r := tryLoadOrStore (getSlot c i) value
    if r.1.2.2 then ((r.1.1, r.1.2.1), setSlot c i r.2)
    else loadOrStoreSlow c key value
  | none => loadOrStoreSlow c key value

/-- `Cache.LoadAndDelete`: returns `(value, loaded)` and the post-state.
The first component of the intermediate pair is the entry found for the
key (if any); the deletion of the entry happens after the mutex is
released. -/
def LoadAndDelete (c : Cache K V) (key : K) : (V × Bool) × Cache K V :=
  let t : Option Nat × Cache K V :=
    match mfind (readM c) key with
    | some i => (some i, c)
    | none =>
      if readAmended c then
        match mfind (readM c) key with
        | some i => (some i, c)
        | none =>
          if readAmended c then
            let e := mfind (c.dirty.getD []) key
            let c1 := { c with dirty := c.dirty.map (fun d => merase d key) }
            (e, missLocked c1)
          else (none, c)
      else (none, c)
  match t.1 with
  | some i =>
    let r := entryDelete (getSlot t.2 i)
    (r.1, setSlot t.2 i r.2)
  | none => ((default, false), t.2)

/-- `Cache.Delete`: `LoadAndDelete` with the result discarded. -/
def Delete (c : Cache K V) (key : K) : Cache K V :=
  (LoadAndDelete c key).2

/-- `ComparableCache.CompareAndSwap`: returns `swapped` and the
post-state. -/
def CompareAndSwap (c : Cache K V) (key : K) (old nw : V) :
    Bool × Cache K V :=
  match mfind (readM c) key with
  | some i =>
    let r := tryCompareAndSwap (getSlot c i) old nw
    (r.1, setSlot c i r.2)
  | none =>
    if readAmended c = false then (false, c)
    else
      -- mutex acquired; re-load and re-check
      match mfind (readM c) key with
      | some i =>
        let r := tryCompareAndSwap (getSlot c i) old nw
        (r.1, setSlot c i r.2)
      | none =>
        match mfind (c.dirty.getD []) key with
        | some i =>
          let r := tryCompareAndSwap (getSlot c i) old nw
          let c1 := setSlot c i r.2
          (r.1, missLocked c1)
        | none => (false, c)

/-- `ComparableCache.CompareAndDelete`: returns `deleted` and the
post-state. The entry lookup mirrors `Load` (including the miss recorded
regardless of outcome); the compare-and-delete on the entry happens after
the mutex is released. -/
def CompareAndDelete (c : Cache K V) (key : K) (old : V) :
    Bool × Cache K V :=
  let t : Option Nat × Cache K V :=
    match mfind (readM c) key with
    | some i => (some i, c)
    | none =>
      if readAmended c then
        match mfind (readM c) key with
        | some i => (some i, c)
        | none =>
          if readAmended c then
            (mfind (c.dirty.getD []) key, missLocked c)
          else (none, c)
      else (none, c)
  match t.1 with
  | some i =>
    match getSlot t.2 i with
    | Slot.value v =>
      if v = old then (true, setSlot t.2 i Slot.absent)
      else (false, t.2)
    | _ => (false, t.2)
  | none => (false, t.2)

/-- The iteration loop of `Cache.Range` over a snapshot mapping with a
pure visitor; returns the trace of `(key, value)` pairs passed to the
visitor, in order, stopping after the first pair on which the visitor
returns false. -/
def rangeLoop (c : Cache K V) (f : K → V → Bool) :
    List (K × Nat) → List (K × V)
  | [] => []
  | (k, i) :: t =>
    let r := entryLoad (getSlot c i)
    if r.2 then
      if f k r.1 then (k, r.1) :: rangeLoop c f t else [(k, r.1)]
    else rangeLoop c f t

/-- `Cache.Range` with a pure visitor: returns the trace of visited pairs
and the post-state (the promotion of an amended snapshot is the only state
change). -/
def Range (c : Cache K V) (f : K → V → Bool) :
    List (K × V) × Cache K V :=
  let p : ReadOnly K × Cache K V :=
    if readAmended c then
      -- mutex acquired; re-check amended
      if readAmended c then
        let r : ReadOnly K := ⟨c.dirty.getD [], false⟩
        (r, { c with read := some r, dirty := none, misses := 0 })
      else (loadReadOnly c, c)
    else (loadReadOnly c, c)
  (rangeLoop p.2 f p.1.m, p.2)

/-- One operation of the public API exercised by the refinement claim. -/
inductive Op (K V : Type) where
  | load (k : K)
  | store (k : K) (v : V)
  | swap (k : K) (v : V)
  | loadOrStore (k : K) (v : V)
  | del (k : K)
  | loadAndDelete (k : K)
  | cas (k : K) (old nw : V)
  | cad (k : K) (old : V)

/-- Observable result of one operation. -/
inductive Out (V : Type) where
  | res (v : V) (b : Bool)
  | flag (b : Bool)
  | done
deriving DecidableEq

/-- Run one operation on the cache. -/
def applyOp (c : Cache K V) : Op K V → Out V × Cache K V
  | Op.load k => ((Out.res (Load c k).1.1 (Load c k).1.2), (Load c k).2)
  | Op.store k v => (Out.done, Store c k v)
  | Op.swap k v => ((Out.res (Swap c k v).1.1 (Swap c k v).1.2), (Swap c k v).2)
  | Op.loadOrStore k v =>
    ((Out.res (LoadOrStore c k v).1.1 (LoadOrStore c k v).1.2), (LoadOrStore c k v).2)
  | Op.del k => (Out.done, Delete c k)
  | Op.loadAndDelete k =>
    ((Out.res (LoadAndDelete c k).1.1 (LoadAndDelete c k).1.2), (LoadAndDelete c k).2)
  | Op.cas k old nw => (Out.flag (CompareAndSwap c k old nw).1, (CompareAndSwap c k old nw).2)
  | Op.cad k old => (Out.flag (CompareAndDelete c k old).1, (CompareAndDelete c k old).2)

/-- Run a sequence of operations on the cache, collecting the results. -/
def runOps (c : Cache K V) : List (Op K V) → List (Out V) × Cache K V
  | [] => ([], c)
  | op :: t =>
    let r := applyOp c op
    let rest := runOps r.2 t
    (r.1 :: rest.1, rest.2)

/-- A cache state reachable from the zero value by a finite sequence of
public operations. -/
def Reachable (c : Cache K V) : Prop :=
  ∃ ops : List (Op K V), (runOps emptyCache ops).2 = c

/-- The reference model: a plain map from keys to optional values. -/
def SpecMap (K V : Type) : Type := K → Option V

/-- The empty reference map. -/
def specEmpty : SpecMap K V := fun _ => none

/-- Point update of the reference map. -/
def specUpdate (m : SpecMap K V) (k : K) (v : Option V) : SpecMap K V :=
  fun x => if x = k then v else m x

/-- Reference lookup producing a `(value, ok)` pair with the zero value on
a missing key. -/
def specLoad (m : SpecMap K V) (k : K) : V × Bool :=
  match m k with
  | some v => (v, true)
  | none => (default, false)

/-- Run one operation on the reference map. -/
def specApply (m : SpecMap K V) : Op K V → Out V × SpecMap K V
  | Op.load k => (Out.res (specLoad m k).1 (specLoad m k).2, m)
  | Op.store k v => (Out.done, specUpdate m k (some v))
  | Op.swap k v =>
    (Out.res (specLoad m k).1 (specLoad m k).2, specUpdate m k (some v))
  | Op.loadOrStore k v =>
    match m k with
    | some w => (Out.res w true, m)
    | none => (Out.res v false, specUpdate m k (some v))
  | Op.del k => (Out.done, specUpdate m k none)
  | Op.loadAndDelete k =>
    (Out.res (specLoad m k).1 (specLoad m k).2, specUpdate m k none)
  | Op.cas k old nw =>
    if m k = some old then (Out.flag true, specUpdate m k (some nw))
    else (Out.flag false, m)
  | Op.cad k old =>
    if m k = some old then (Out.flag true, specUpdate m k none)
    else (Out.flag false, m)

/-- Run a sequence of operations on the reference map. -/
def specRun (m : SpecMap K V) : List (Op K V) → List (Out V) × SpecMap K V
  | [] => ([], m)
  | op :: t =>
    let r := specApply m op
    let rest := specRun r.2 t
    (r.1 :: rest.1, rest.2)

/-- The boxed value of a slot, if any. -/
def slotVal (s : Slot V) : Option V :=
  match s with
  | Slot.value v => some v
  | _ => none

/-- Abstraction of the cache state to a plain map: read-snapshot entries
first, then dirty-only entries. -/
def absLookup (c : Cache K V) (k : K) : Option V :=
  match mfind (readM c) k with
  | some i => slotVal (getSlot c i)
  | none =>
    match c.dirty with
    | some d =>
      match mfind d k with
      | some i => slotVal (getSlot c i)
      | none => none
    | none => none


/-! ### Association-list lemmas -/

theorem mfind_cons_self (k : K) (b : Nat) (t : List (K × Nat)) :
    mfind ((k, b) :: t) k = some b := by simp [mfind]

theorem mfind_cons_ne {k k0 : K} (h : k ≠ k0) (b : Nat) (t : List (K × Nat)) :
    mfind ((k0, b) :: t) k = mfind t k := by simp [mfind, h]

theorem minsert_cons_self (k : K) (b a : Nat) (t : List (K × Nat)) :
    minsert ((k, b) :: t) k a = (k, a) :: t := by simp [minsert]

theorem minsert_cons_ne {k k0 : K} (h : k ≠ k0) (b a : Nat) (t : List (K × Nat)) :
    minsert ((k0, b) :: t) k a = (k0, b) :: minsert t k a := by simp [minsert, h]

theorem mfind_minsert_self (l : List (K × Nat)) (k : K) (a : Nat) :
    mfind (minsert l k a) k = some a := by
  induction l with
  | nil => simp [minsert, mfind]
  | cons p t ih =>
    rcases p with ⟨k0, b⟩
    by_cases h : k = k0
    · subst h; simp [minsert, mfind]
    · simp [minsert, mfind, h, ih]

theorem mfind_minsert_ne (l : List (K × Nat)) {k k' : K} (a : Nat)
    (h : k' ≠ k) : mfind (minsert l k a) k' = mfind l k' := by
  induction l with
  | nil => simp [minsert, mfind, h]
  | cons p t ih =>
    rcases p with ⟨k0, b⟩
    by_cases h0 : k = k0
    · subst h0; simp [minsert, mfind, h]
    · by_cases h1 : k' = k0 <;> simp [minsert, mfind, h0, h1, ih]

theorem mfind_merase_self (l : List (K × Nat)) (k : K) :
    mfind (merase l k) k = none := by
  induction l with
  | nil => simp [merase, mfind]
  | cons p t ih =>
    rcases p with ⟨k0, b⟩
    by_cases h : k0 = k
    · subst h; simpa [merase] using ih
    · have h' : k ≠ k0 := fun hk => h hk.symm
      simp [merase, mfind, h, h', ih]

theorem mfind_merase_ne (l : List (K × Nat)) {k k' : K} (h : k' ≠ k) :
    mfind (merase l k) k' = mfind l k' := by
  induction l with
  | nil => simp [merase, mfind]
  | cons p t ih =>
    rcases p with ⟨k0, b⟩
    by_cases h0 : k0 = k
    · subst h0; simp [merase, mfind, if_neg h, ih]
    · by_cases h1 : k' = k0 <;> simp [merase, mfind, h0, h1, ih]

theorem mfind_mem {l : List (K × Nat)} {k : K} {a : Nat}
    (h : mfind l k = some a) : (k, a) ∈ l := by
  induction l with
  | nil => simp [mfind] at h
  | cons p t ih =>
    rcases p with ⟨k0, b⟩
    by_cases h0 : k = k0
    · subst h0
      rw [mfind_cons_self] at h
      injection h with h
      subst h
      exact List.mem_cons_self _ _
    · rw [mfind_cons_ne h0] at h
      exact List.mem_cons_of_mem _ (ih h)

theorem mem_mfind {l : List (K × Nat)} (hnd : (l.map Prod.fst).Nodup)
    {k : K} {a : Nat} (h : (k, a) ∈ l) : mfind l k = some a := by
  induction l with
  | nil => simp at h
  | cons p t ih =>
    rcases p with ⟨k0, b⟩
    simp only [List.map_cons, List.nodup_cons] at hnd
    rcases List.mem_cons.mp h with hm | hm
    · cases hm
      exact mfind_cons_self _ _ _
    · have hk : k ≠ k0 := by
        rintro rfl
        exact hnd.1 (List.mem_map.mpr ⟨(k, a), hm, rfl⟩)
      rw [mfind_cons_ne hk]
      exact ih hnd.2 hm

theorem mfind_eq_none {l : List (K × Nat)} {k : K}
    (h : mfind l k = none) : ∀ a, (k, a) ∉ l := by
  induction l with
  | nil => intro a ha; simp at ha
  | cons p t ih =>
    rcases p with ⟨k0, b⟩
    by_cases h0 : k = k0
    · subst h0; simp [mfind] at h
    · simp only [mfind, if_neg h0] at h
      intro a ha
      rcases List.mem_cons.mp ha with hc | hc
      · exact h0 (congrArg Prod.fst hc)
      · exact ih h a hc

theorem keys_minsert_sub {l : List (K × Nat)} {k : K} {a : Nat} :
    ∀ x ∈ (minsert l k a).map Prod.fst, x ∈ l.map Prod.fst ∨ x = k := by
  intro x hx
  induction l with
  | nil =>
    simp only [minsert, List.map_cons, List.map_nil, List.mem_singleton] at hx
    right; exact hx
  | cons p t ih =>
    rcases p with ⟨k0, b⟩
    by_cases h0 : k = k0
    · subst h0
      rw [minsert_cons_self] at hx
      left
      simp only [List.map_cons] at hx ⊢
      exact hx
    · rw [minsert_cons_ne h0] at hx
      simp only [List.map_cons, List.mem_cons] at hx
      rcases hx with hx | hx
      · left; simp [hx]
      · rcases ih hx with h | h
        · left
          simp only [List.map_cons, List.mem_cons]
          right; exact h
        · right; exact h

theorem keys_nodup_minsert {l : List (K × Nat)} (hnd : (l.map Prod.fst).Nodup)
    (k : K) (a : Nat) : ((minsert l k a).map Prod.fst).Nodup := by
  induction l with
  | nil => simp [minsert]
  | cons p t ih =>
    rcases p with ⟨k0, b⟩
    simp only [List.map_cons, List.nodup_cons] at hnd
    by_cases h0 : k = k0
    · subst h0
      rw [minsert_cons_self]
      simp only [List.map_cons, List.nodup_cons]
      exact ⟨hnd.1, hnd.2⟩
    · rw [minsert_cons_ne h0]
      simp only [List.map_cons, List.nodup_cons]
      refine ⟨?_, ih hnd.2⟩
      intro hmem
      rcases keys_minsert_sub _ hmem with h | h
      · exact hnd.1 h
      · exact h0 h.symm

theorem keys_merase_sub {l : List (K × Nat)} {k : K} :
    ∀ x ∈ (merase l k).map Prod.fst, x ∈ l.map Prod.fst := by
  intro x hx
  induction l with
  | nil => simp [merase] at hx
  | cons p t ih =>
    rcases p with ⟨k0, b⟩
    by_cases h0 : k0 = k
    · subst h0
      simp only [merase, if_pos rfl] at hx
      simp only [List.map_cons, List.mem_cons]
      right; exact ih hx
    · simp only [merase, if_neg h0, List.map_cons, List.mem_cons] at hx ⊢
      rcases hx with hx | hx
      · left; exact hx
      · right; exact ih hx

theorem keys_nodup_merase {l : List (K × Nat)} (hnd : (l.map Prod.fst).Nodup)
    (k : K) : ((merase l k).map Prod.fst).Nodup := by
  induction l with
  | nil => simp [merase]
  | cons p t ih =>
    rcases p with ⟨k0, b⟩
    simp only [List.map_cons, List.nodup_cons] at hnd
    by_cases h0 : k0 = k
    · subst h0
      simp only [merase, if_pos rfl]
      exact ih hnd.2
    · simp only [merase, if_neg h0, List.map_cons, List.nodup_cons]
      exact ⟨fun hm => hnd.1 (keys_merase_sub _ hm), ih hnd.2⟩

/-! ### State accessor lemmas -/

theorem readM_setSlot (c : Cache K V) (i : Nat) (s : Slot V) :
    readM (setSlot c i s) = readM c := rfl

theorem readAmended_setSlot (c : Cache K V) (i : Nat) (s : Slot V) :
    readAmended (setSlot c i s) = readAmended c := rfl

theorem dirty_setSlot (c : Cache K V) (i : Nat) (s : Slot V) :
    (setSlot c i s).dirty = c.dirty := rfl

theorem next_setSlot (c : Cache K V) (i : Nat) (s : Slot V) :
    (setSlot c i s).next = c.next := rfl

theorem slots_setSlot_self (c : Cache K V) (i : Nat) (s : Slot V) :
    (setSlot c i s).slots i = s := by simp [setSlot]

theorem slots_setSlot_ne (c : Cache K V) {i j : Nat} (h : j ≠ i) (s : Slot V) :
    (setSlot c i s).slots j = c.slots j := by simp [setSlot, h]

theorem setSlot_self (c : Cache K V) (i : Nat) :
    setSlot c i (c.slots i) = c := by
  have h : (fun j => if j = i then c.slots i else c.slots j) = c.slots := by
    funext j
    by_cases hj : j = i <;> simp [hj]
  simp [setSlot, h]

theorem getSlot_setSlot_self (c : Cache K V) (i : Nat) (s : Slot V) :
    getSlot (setSlot c i s) i = s := slots_setSlot_self c i s

theorem missLocked_slots (c : Cache K V) :
    (missLocked c).slots = c.slots := by
  unfold missLocked dirtySize
  by_cases h : c.misses + 1 < (c.dirty.getD []).length <;> simp [h]

theorem missLocked_next (c : Cache K V) :
    (missLocked c).next = c.next := by
  unfold missLocked dirtySize
  by_cases h : c.misses + 1 < (c.dirty.getD []).length <;> simp [h]

/-- `missLocked` either just bumps the counter or promotes the dirty map. -/
theorem missLocked_cases (c : Cache K V) :
    (missLocked c = { c with misses := c.misses + 1 }) ∨
    (missLocked c =
      { c with read := some ⟨c.dirty.getD [], false⟩, dirty := none, misses := 0 }) := by
  unfold missLocked dirtySize
  by_cases h : c.misses + 1 < (c.dirty.getD []).length <;> simp [h]

/-! ### The state invariant and the abstraction to a plain map -/

/-- Slot index `i` is the entry registered for key `k` (in the read
snapshot or in the dirty map). -/
def Assigned (c : Cache K V) (k : K) (i : Nat) : Prop :=
  mfind (readM c) k = some i ∨ ∃ d, c.dirty = some d ∧ mfind d k = some i

/-- The sequential state invariant of the cache, maintained by every
public operation starting from the zero value. -/
structure Inv (c : Cache K V) : Prop where
  readNodup : ((readM c).map Prod.fst).Nodup
  dirtyNodup : ∀ d, c.dirty = some d → (d.map Prod.fst).Nodup
  readBound : ∀ k i, mfind (readM c) k = some i → i < c.next
  dirtyBound : ∀ d k i, c.dirty = some d → mfind d k = some i → i < c.next
  inj : ∀ k1 k2 i, Assigned c k1 i → Assigned c k2 i → k1 = k2
  consistent : ∀ d k i j, c.dirty = some d → mfind (readM c) k = some i →
    mfind d k = some j → i = j
  amendedIff : readAmended c = true ↔ c.dirty ≠ none
  noExpNil : c.dirty = none → ∀ k i, mfind (readM c) k = some i →
    c.slots i ≠ Slot.expunged
  dirtyNoExp : ∀ d k i, c.dirty = some d → mfind d k = some i →
    c.slots i ≠ Slot.expunged
  subsetDirty : ∀ d k i, c.dirty = some d → mfind (readM c) k = some i →
    c.slots i ≠ Slot.expunged → mfind d k = some i

theorem Inv.expNotDirty {c : Cache K V} (h : Inv c) {d : List (K × Nat)}
    {k : K} {i : Nat} (hd : c.dirty = some d)
    (hr : mfind (readM c) k = some i) (he : c.slots i = Slot.expunged) :
    mfind d k = none := by
  cases hq : mfind d k with
  | none => rfl
  | some j =>
    have hij := h.consistent d k i j hd hr hq
    subst hij
    exact absurd he (h.dirtyNoExp d k i hd hq)

theorem inv_empty : Inv (emptyCache : Cache K V) := by
  constructor <;>
    simp [emptyCache, readM, readAmended, loadReadOnly, Assigned, mfind]

theorem absLookup_read {c : Cache K V} {k : K} {i : Nat}
    (hr : mfind (readM c) k = some i) :
    absLookup c k = slotVal (c.slots i) := by
  simp [absLookup, hr, getSlot]

theorem absLookup_dirtyFind {c : Cache K V} {k : K} {d : List (K × Nat)}
    {i : Nat} (hr : mfind (readM c) k = none) (hd : c.dirty = some d)
    (hf : mfind d k = some i) :
    absLookup c k = slotVal (c.slots i) := by
  simp [absLookup, hr, hd, hf, getSlot]

theorem absLookup_none_none {c : Cache K V} {k : K}
    (hr : mfind (readM c) k = none) (hd : c.dirty = none) :
    absLookup c k = none := by
  simp [absLookup, hr, hd]

theorem absLookup_none_find {c : Cache K V} {k : K} {d : List (K × Nat)}
    (hr : mfind (readM c) k = none) (hd : c.dirty = some d)
    (hf : mfind d k = none) :
    absLookup c k = none := by
  simp [absLookup, hr, hd, hf]

theorem Assigned_setSlot (c : Cache K V) (i : Nat) (s : Slot V) (k : K)
    (j : Nat) : Assigned (setSlot c i s) k j ↔ Assigned c k j := Iff.rfl

/-- Setting a slot without changing its expunged status preserves the
invariant. -/
theorem Inv.setSlotPres {c : Cache K V} (h : Inv c) (i : Nat) (s : Slot V)
    (hexp : (c.slots i = Slot.expunged) ↔ (s = Slot.expunged)) :
    Inv (setSlot c i s) := by
  have hslot : ∀ j, ((setSlot c i s).slots j = Slot.expunged) ↔
      (c.slots j = Slot.expunged) := by
    intro j
    by_cases hj : j = i
    · subst hj
      rw [slots_setSlot_self]
      exact hexp.symm
    · rw [slots_setSlot_ne c hj]
  constructor
  · exact h.readNodup
  · exact h.dirtyNodup
  · exact h.readBound
  · exact h.dirtyBound
  · exact h.inj
  · exact h.consistent
  · exact h.amendedIff
  · intro hd k j hm hc
    exact h.noExpNil hd k j hm ((hslot j).mp hc)
  · intro d k j hd hm hc
    exact h.dirtyNoExp d k j hd hm ((hslot j).mp hc)
  · intro d k j hd hm hc
    exact h.subsetDirty d k j hd hm (fun hx => hc ((hslot j).mpr hx))

/-- Setting the slot registered for key `k0` updates the abstraction
exactly at `k0`. -/
theorem absLookup_setSlot {c : Cache K V} (h : Inv c) {k0 : K} {i : Nat}
    (ha : Assigned c k0 i) (s : Slot V) :
    absLookup (setSlot c i s) = specUpdate (absLookup c) k0 (slotVal s) := by
  funext k
  by_cases hk : k = k0
  · subst hk
    rw [specUpdate, if_pos rfl]
    rcases ha with hr | ⟨d, hd, hf⟩
    · rw [absLookup_read (c := setSlot c i s) (by rw [readM_setSlot]; exact hr),
        slots_setSlot_self]
    · cases hq : mfind (readM c) k with
      | none =>
        rw [absLookup_dirtyFind (c := setSlot c i s)
          (by rw [readM_setSlot]; exact hq)
          (by rw [dirty_setSlot]; exact hd) hf, slots_setSlot_self]
      | some j =>
        have hij : j = i := h.consistent d k j i hd hq hf
        rw [absLookup_read (c := setSlot c i s)
          (by rw [readM_setSlot, hq, hij]), slots_setSlot_self]
  · rw [specUpdate, if_neg hk]
    have hne : ∀ j, Assigned c k j → j ≠ i := by
      intro j hj hji
      subst hji
      exact hk (h.inj k k0 j hj ha)
    cases hq : mfind (readM c) k with
    | some j =>
      have hji : j ≠ i := hne j (Or.inl hq)
      rw [absLookup_read (c := setSlot c i s) (by rw [readM_setSlot]; exact hq),
        absLookup_read hq, slots_setSlot_ne c hji]
    | none =>
      cases hd : c.dirty with
      | none =>
        rw [absLookup_none_none (c := setSlot c i s)
          (by rw [readM_setSlot]; exact hq) (by rw [dirty_setSlot]; exact hd),
          absLookup_none_none hq hd]
      | some d =>
        cases hf : mfind d k with
        | some j =>
          have hji : j ≠ i := hne j (Or.inr ⟨d, hd, hf⟩)
          rw [absLookup_dirtyFind (c := setSlot c i s)
            (by rw [readM_setSlot]; exact hq)
            (by rw [dirty_setSlot]; exact hd) hf,
            absLookup_dirtyFind hq hd hf, slots_setSlot_ne c hji]
        | none =>
          rw [absLookup_none_find (c := setSlot c i s)
            (by rw [readM_setSlot]; exact hq)
            (by rw [dirty_setSlot]; exact hd) hf,
            absLookup_none_find hq hd hf]

/-- Setting a slot registered for no key leaves the abstraction
unchanged. -/
theorem absLookup_setSlot_unassigned {c : Cache K V} {i : Nat}
    (hun : ∀ k, ¬ Assigned c k i) (s : Slot V) :
    absLookup (setSlot c i s) = absLookup c := by
  funext k
  cases hq : mfind (readM c) k with
  | some j =>
    have hji : j ≠ i := fun hx => hun k (hx ▸ Or.inl hq)
    rw [absLookup_read (c := setSlot c i s) (by rw [readM_setSlot]; exact hq),
      absLookup_read hq, slots_setSlot_ne c hji]
  | none =>
    cases hd : c.dirty with
    | none =>
      rw [absLookup_none_none (c := setSlot c i s)
        (by rw [readM_setSlot]; exact hq) (by rw [dirty_setSlot]; exact hd),
        absLookup_none_none hq hd]
    | some d =>
      cases hf : mfind d k with
      | some j =>
        have hji : j ≠ i := fun hx => hun k (hx ▸ Or.inr ⟨d, hd, hf⟩)
        rw [absLookup_dirtyFind (c := setSlot c i s)
          (by rw [readM_setSlot]; exact hq)
          (by rw [dirty_setSlot]; exact hd) hf,
          absLookup_dirtyFind hq hd hf, slots_setSlot_ne c hji]
      | none =>
        rw [absLookup_none_find (c := setSlot c i s)
          (by rw [readM_setSlot]; exact hq)
          (by rw [dirty_setSlot]; exact hd) hf,
          absLookup_none_find hq hd hf]

/-! ### missLocked preserves the invariant and the abstraction -/

theorem inv_misses {c : Cache K V} (h : Inv c) (n : Nat) :
    Inv { c with misses := n } := by
  constructor
  · exact h.readNodup
  · exact h.dirtyNodup
  · exact h.readBound
  · exact h.dirtyBound
  · exact h.inj
  · exact h.consistent
  · exact h.amendedIff
  · exact h.noExpNil
  · exact h.dirtyNoExp
  · exact h.subsetDirty

/-- The promoted state: the dirty map published as the read snapshot. -/
def promoteCache (c : Cache K V) (d : List (K × Nat)) : Cache K V :=
  { c with read := some ⟨d, false⟩, dirty := none, misses := 0 }

theorem readM_promote (c : Cache K V) (d : List (K × Nat)) :
    readM (promoteCache c d) = d := rfl

theorem dirty_promote (c : Cache K V) (d : List (K × Nat)) :
    (promoteCache c d).dirty = none := rfl

theorem slots_promote (c : Cache K V) (d : List (K × Nat)) :
    (promoteCache c d).slots = c.slots := rfl

theorem promote_assigned {c : Cache K V} {d : List (K × Nat)} {k : K} {j : Nat}
    (hd : c.dirty = some d) (hj : Assigned (promoteCache c d) k j) :
    Assigned c k j := by
  rcases hj with hj | ⟨d0, hd0, _⟩
  · exact Or.inr ⟨d, hd, hj⟩
  · cases hd0

theorem promote_inv {c : Cache K V} (h : Inv c) {d : List (K × Nat)}
    (hd : c.dirty = some d) : Inv (promoteCache c d) := by
  constructor
  · exact h.dirtyNodup d hd
  · intro d0 hd0; cases hd0
  · intro k i hm
    exact h.dirtyBound d k i hd hm
  · intro d0 k i hd0; cases hd0
  · intro k1 k2 i h1 h2
    exact h.inj k1 k2 i (promote_assigned hd h1) (promote_assigned hd h2)
  · intro d0 k i j hd0; cases hd0
  · simp [promoteCache, readAmended, loadReadOnly]
  · intro _ k i hm
    exact h.dirtyNoExp d k i hd hm
  · intro d0 k i hd0; cases hd0
  · intro d0 k i hd0; cases hd0

theorem promote_abs {c : Cache K V} (h : Inv c) {d : List (K × Nat)}
    (hd : c.dirty = some d) :
    absLookup (promoteCache c d) = absLookup c := by
  funext k
  cases hq : mfind (readM c) k with
  | some i =>
    by_cases he : c.slots i = Slot.expunged
    · have hnd := h.expNotDirty hd hq he
      rw [absLookup_none_none (c := promoteCache c d)
          (by rw [readM_promote]; exact hnd) (dirty_promote c d),
        absLookup_read hq, he]
      rfl
    · have hsd := h.subsetDirty d k i hd hq he
      rw [absLookup_read (c := promoteCache c d)
          (by rw [readM_promote]; exact hsd),
        absLookup_read hq, slots_promote]
  | none =>
    cases hf : mfind d k with
    | some i =>
      rw [absLookup_read (c := promoteCache c d)
          (by rw [readM_promote]; exact hf),
        absLookup_dirtyFind hq hd hf, slots_promote]
    | none =>
      rw [absLookup_none_none (c := promoteCache c d)
          (by rw [readM_promote]; exact hf) (dirty_promote c d),
        absLookup_none_find hq hd hf]

theorem missLocked_eq_cases (c : Cache K V) {d : List (K × Nat)}
    (hd : c.dirty = some d) :
    missLocked c = { c with misses := c.misses + 1 } ∨
    missLocked c = promoteCache c d := by
  rcases missLocked_cases c with hm | hm
  · exact Or.inl hm
  · right
    rw [hm, hd]
    rfl

theorem missLocked_sim {c : Cache K V} (h : Inv c) {d : List (K × Nat)}
    (hd : c.dirty = some d) :
    Inv (missLocked c) ∧ absLookup (missLocked c) = absLookup c := by
  rcases missLocked_eq_cases c hd with hm | hm <;> rw [hm]
  · constructor
    · exact inv_misses h _
    · rfl
  · exact ⟨promote_inv h hd, promote_abs h hd⟩

theorem missLocked_assigned {c : Cache K V} {d : List (K × Nat)} {k : K}
    {i : Nat} (hd : c.dirty = some d) (hf : mfind d k = some i) :
    Assigned (missLocked c) k i := by
  rcases missLocked_eq_cases c hd with hm | hm <;> rw [hm]
  · exact Or.inr ⟨d, hd, hf⟩
  · exact Or.inl hf

/-! ### dirtyLocked: materializing the dirty map -/

theorem tryExpunge_slotVal (s : Slot V) :
    slotVal (tryExpungeLocked s).2 = slotVal s := by
  cases s <;> rfl

theorem tryExpunge_fst (s : Slot V) :
    (tryExpungeLocked s).1 = !(slotVal s).isSome := by
  cases s <;> rfl

theorem dirtyLoop_state (c : Cache K V) (l : List (K × Nat)) :
    (dirtyLoop c l).2.read = c.read ∧ (dirtyLoop c l).2.dirty = c.dirty ∧
    (dirtyLoop c l).2.misses = c.misses ∧ (dirtyLoop c l).2.next = c.next := by
  induction l generalizing c with
  | nil => exact ⟨rfl, rfl, rfl, rfl⟩
  | cons p t ih =>
    rcases p with ⟨k, i⟩
    simp only [dirtyLoop]
    exact ih (setSlot c i (tryExpungeLocked (getSlot c i)).2)

theorem dirtyLoop_slots_cases (c : Cache K V) (l : List (K × Nat)) (j : Nat) :
    (dirtyLoop c l).2.slots j = c.slots j ∨
    (c.slots j = Slot.absent ∧ (dirtyLoop c l).2.slots j = Slot.expunged) := by
  induction l generalizing c with
  | nil => exact Or.inl rfl
  | cons p t ih =>
    rcases p with ⟨k, i⟩
    simp only [dirtyLoop]
    by_cases hj : j = i
    · subst hj
      cases hs : c.slots j with
      | absent =>
        have h2 : (setSlot c j (tryExpungeLocked (getSlot c j)).2).slots j =
            Slot.expunged := by
          rw [slots_setSlot_self, getSlot, hs]
          rfl
        rcases ih (setSlot c j (tryExpungeLocked (getSlot c j)).2) with h1 | h1
        · right; exact ⟨rfl, by rw [h1, h2]⟩
        · right; exact ⟨rfl, h1.2⟩
      | expunged =>
        have h2 : (setSlot c j (tryExpungeLocked (getSlot c j)).2).slots j =
            Slot.expunged := by
          rw [slots_setSlot_self, getSlot, hs]
          rfl
        rcases ih (setSlot c j (tryExpungeLocked (getSlot c j)).2) with h1 | h1
        · left; rw [h1, h2]
        · rw [h2] at h1
          cases h1.1
      | value v =>
        have h2 : (setSlot c j (tryExpungeLocked (getSlot c j)).2).slots j =
            Slot.value v := by
          rw [slots_setSlot_self, getSlot, hs]
          rfl
        rcases ih (setSlot c j (tryExpungeLocked (getSlot c j)).2) with h1 | h1
        · left; rw [h1, h2]
        · rw [h2] at h1
          cases h1.1
    · have h2 : (setSlot c i (tryExpungeLocked (getSlot c i)).2).slots j =
          c.slots j := slots_setSlot_ne c hj _
      rcases ih (setSlot c i (tryExpungeLocked (getSlot c i)).2) with h1 | h1
      · left; rw [h1, h2]
      · right
        refine ⟨?_, h1.2⟩
        rw [← h2]
        exact h1.1

theorem dirtyLoop_slotVal (c : Cache K V) (l : List (K × Nat)) (j : Nat) :
    slotVal ((dirtyLoop c l).2.slots j) = slotVal (c.slots j) := by
  rcases dirtyLoop_slots_cases c l j with h | h
  · rw [h]
  · rw [h.2, h.1]
    rfl

theorem dirtyLoop_notExp {c : Cache K V} {l : List (K × Nat)} {j : Nat}
    (hne : (dirtyLoop c l).2.slots j ≠ Slot.expunged) :
    (dirtyLoop c l).2.slots j = c.slots j := by
  rcases dirtyLoop_slots_cases c l j with h | h
  · exact h
  · exact absurd h.2 hne

theorem dirtyLoop_mem_absent (c : Cache K V) {l : List (K × Nat)} {k : K}
    {i : Nat} (hm : (k, i) ∈ l) (ha : c.slots i = Slot.absent) :
    (dirtyLoop c l).2.slots i = Slot.expunged := by
  induction l generalizing c with
  | nil => cases hm
  | cons p t ih =>
    rcases p with ⟨k0, j⟩
    simp only [dirtyLoop]
    by_cases hij : i = j
    · subst hij
      have h2 : (setSlot c i (tryExpungeLocked (getSlot c i)).2).slots i =
          Slot.expunged := by
        rw [slots_setSlot_self, getSlot, ha]
        rfl
      rcases dirtyLoop_slots_cases
          (setSlot c i (tryExpungeLocked (getSlot c i)).2) t i with h1 | h1
      · rw [h1, h2]
      · exact h1.2
    · rcases List.mem_cons.mp hm with hc | hc
      · exact absurd (congrArg Prod.snd hc) hij
      · refine ih _ hc ?_
        rw [slots_setSlot_ne c hij]
        exact ha

theorem dirtyLoop_fst (c : Cache K V) (l : List (K × Nat)) :
    (dirtyLoop c l).1 =
      l.filter (fun p => (slotVal (c.slots p.2)).isSome) := by
  induction l generalizing c with
  | nil => rfl
  | cons p t ih =>
    rcases p with ⟨k, i⟩
    simp only [dirtyLoop, List.filter_cons]
    rw [ih (setSlot c i (tryExpungeLocked (getSlot c i)).2)]
    have hcong :
        t.filter (fun p => (slotVal ((setSlot c i
            (tryExpungeLocked (getSlot c i)).2).slots p.2)).isSome) =
        t.filter (fun p => (slotVal (c.slots p.2)).isSome) := by
      apply List.filter_congr
      intro x hx
      by_cases hxi : x.2 = i
      · rw [hxi, slots_setSlot_self, getSlot, tryExpunge_slotVal]
      · rw [slots_setSlot_ne c hxi]
    rw [hcong, tryExpunge_fst, getSlot]
    cases hb : (slotVal (c.slots i)).isSome <;> simp

/-- The effect of `dirtyLocked` on a cache with a nil dirty map. -/
theorem dirtyLocked_none (c : Cache K V) (hd : c.dirty = none) :
    dirtyLocked c = { (dirtyLoop c (readM c)).2 with
      dirty := some ((readM c).filter
        (fun p => (slotVal (c.slots p.2)).isSome)) } := by
  simp only [dirtyLocked]
  rw [hd]
  simp only [dirtyLoop_fst]

theorem Inv.dirty_none_of_unamended {c : Cache K V} (h : Inv c)
    (ha : readAmended c = false) : c.dirty = none := by
  by_contra hn
  have hx := h.amendedIff.mpr hn
  rw [ha] at hx
  cases hx

theorem Inv.dirty_some_of_amended {c : Cache K V} (h : Inv c)
    (ha : readAmended c = true) : ∃ d, c.dirty = some d := by
  have hx := h.amendedIff.mp ha
  cases hq : c.dirty with
  | none => exact absurd hq hx
  | some d => exact ⟨d, rfl⟩

/-! ### Fresh allocation and filter lemmas -/

theorem alloc_read (c : Cache K V) (s : Slot V) :
    (allocSlot c s).2.read = c.read := rfl

theorem alloc_dirty (c : Cache K V) (s : Slot V) :
    (allocSlot c s).2.dirty = c.dirty := rfl

theorem alloc_next (c : Cache K V) (s : Slot V) :
    (allocSlot c s).2.next = c.next + 1 := rfl

theorem alloc_fst (c : Cache K V) (s : Slot V) :
    (allocSlot c s).1 = c.next := rfl

theorem readM_alloc (c : Cache K V) (s : Slot V) :
    readM (allocSlot c s).2 = readM c := rfl

theorem readAmended_alloc (c : Cache K V) (s : Slot V) :
    readAmended (allocSlot c s).2 = readAmended c := rfl

theorem alloc_slots_self (c : Cache K V) (s : Slot V) :
    (allocSlot c s).2.slots c.next = s := by simp [allocSlot]

theorem alloc_slots_ne (c : Cache K V) {j : Nat} (h : j ≠ c.next)
    (s : Slot V) : (allocSlot c s).2.slots j = c.slots j := by
  simp [allocSlot, h]

theorem keys_nodup_filter {l : List (K × Nat)}
    (hnd : (l.map Prod.fst).Nodup) (p : K × Nat → Bool) :
    ((l.filter p).map Prod.fst).Nodup :=
  hnd.sublist (List.Sublist.map Prod.fst (List.filter_sublist l))

theorem mfind_filter_none {l : List (K × Nat)} {k : K}
    (hr : mfind l k = none) (p : K × Nat → Bool) :
    mfind (l.filter p) k = none := by
  cases hq : mfind (l.filter p) k with
  | none => rfl
  | some j =>
    have hm := List.mem_of_mem_filter (mfind_mem hq)
    exact absurd hm (mfind_eq_none hr j)

theorem mfind_filter_some {l : List (K × Nat)}
    (hnd : (l.map Prod.fst).Nodup) {k : K} {i : Nat} {p : K × Nat → Bool}
    (hm : mfind l k = some i) (hp : p (k, i) = true) :
    mfind (l.filter p) k = some i :=
  mem_mfind (keys_nodup_filter hnd p)
    (List.mem_filter.mpr ⟨mfind_mem hm, hp⟩)

theorem mfind_filter_rev {l : List (K × Nat)}
    (hnd : (l.map Prod.fst).Nodup) {k : K} {i : Nat} {p : K × Nat → Bool}
    (hm : mfind (l.filter p) k = some i) :
    mfind l k = some i ∧ p (k, i) = true := by
  have hx := List.mem_filter.mp (mfind_mem hm)
  exact ⟨mem_mfind hnd hx.1, hx.2⟩

theorem Inv.assigned_bound {c : Cache K V} (h : Inv c) {k : K} {i : Nat}
    (ha : Assigned c k i) : i < c.next := by
  rcases ha with ha | ⟨d, hd, hf⟩
  · exact h.readBound k i ha
  · exact h.dirtyBound d k i hd hf

/-! ### The new-key slow path -/

/-- The state after `dirtyLocked` followed by republishing the snapshot
with `amended = true` (the first half of the new-key slow path). -/
def amendCache (c : Cache K V) : Cache K V :=
  { dirtyLocked c with read := some ⟨readM c, true⟩ }

theorem amend_sim {c : Cache K V} (h : Inv c) (hd : c.dirty = none) :
    Inv (amendCache c) ∧ absLookup (amendCache c) = absLookup c ∧
    readM (amendCache c) = readM c ∧
    (amendCache c).dirty = some ((readM c).filter
      (fun p => (slotVal (c.slots p.2)).isSome)) ∧
    (amendCache c).next = c.next := by
  have hloop := dirtyLoop_state c (readM c)
  have hA : amendCache c = { (dirtyLoop c (readM c)).2 with
      dirty := some ((readM c).filter
        (fun p => (slotVal (c.slots p.2)).isSome)),
      read := some ⟨readM c, true⟩ } := by
    unfold amendCache
    rw [dirtyLocked_none c hd]
  have hrm : readM (amendCache c) = readM c := by rw [hA]; rfl
  have hdd : (amendCache c).dirty = some ((readM c).filter
      (fun p => (slotVal (c.slots p.2)).isSome)) := by rw [hA]
  have hnx : (amendCache c).next = c.next := by rw [hA]; exact hloop.2.2.2
  have hsl : ∀ j, (amendCache c).slots j = (dirtyLoop c (readM c)).2.slots j := by
    intro j; rw [hA]
  have ham : readAmended (amendCache c) = true := by rw [hA]; rfl
  have hfind : ∀ k i, mfind ((readM c).filter
      (fun p => (slotVal (c.slots p.2)).isSome)) k = some i →
      mfind (readM c) k = some i ∧ (slotVal (c.slots i)).isSome = true := by
    intro k i hm
    exact mfind_filter_rev h.readNodup hm
  refine ⟨⟨?_, ?_, ?_, ?_, ?_, ?_, ?_, ?_, ?_, ?_⟩, ?_, hrm, hdd, hnx⟩
  · rw [hrm]; exact h.readNodup
  · intro d0 hd0
    rw [hdd] at hd0
    injection hd0 with hd0
    rw [← hd0]
    exact keys_nodup_filter h.readNodup _
  · intro k i hm
    rw [hrm] at hm
    rw [hnx]
    exact h.readBound k i hm
  · intro d0 k i hd0 hm
    rw [hdd] at hd0
    injection hd0 with hd0
    rw [← hd0] at hm
    rw [hnx]
    exact h.readBound k i (hfind k i hm).1
  · intro k1 k2 i h1 h2
    have hconv : ∀ k j, Assigned (amendCache c) k j → Assigned c k j := by
      intro k j hj
      rcases hj with hj | ⟨d0, hd0, hj⟩
      · rw [hrm] at hj; exact Or.inl hj
      · rw [hdd] at hd0
        injection hd0 with hd0
        rw [← hd0] at hj
        exact Or.inl (hfind k j hj).1
    exact h.inj k1 k2 i (hconv k1 i h1) (hconv k2 i h2)
  · intro d0 k i j hd0 hm1 hm2
    rw [hrm] at hm1
    rw [hdd] at hd0
    injection hd0 with hd0
    rw [← hd0] at hm2
    have hx := (hfind k j hm2).1
    rw [hm1] at hx
    exact Option.some.inj hx
  · rw [ham, hdd]
    simp
  · intro h0
    rw [hdd] at h0
    cases h0
  · intro d0 k i hd0 hm
    rw [hdd] at hd0
    injection hd0 with hd0
    rw [← hd0] at hm
    have hv := (hfind k i hm).2
    cases hs : c.slots i with
    | absent => rw [hs] at hv; simp [slotVal] at hv
    | expunged => rw [hs] at hv; simp [slotVal] at hv
    | value v =>
      rw [hsl i]
      rcases dirtyLoop_slots_cases c (readM c) i with hc | hc
      · rw [hc, hs]
        intro hx; cases hx
      · rw [hs] at hc; cases hc.1
  · intro d0 k i hd0 hm hne
    rw [hrm] at hm
    rw [hdd] at hd0
    injection hd0 with hd0
    rw [← hd0]
    rw [hsl i] at hne
    have hcs := dirtyLoop_notExp hne
    cases hs : c.slots i with
    | absent =>
      have := dirtyLoop_mem_absent c (mfind_mem hm) hs
      rw [this] at hcs
      rw [hs] at hcs
      cases hcs
    | expunged => exact absurd hs (h.noExpNil hd k i hm)
    | value v =>
      refine mfind_filter_some h.readNodup hm ?_
      rw [hs]
      rfl
  · funext k
    cases hq : mfind (readM c) k with
    | some i =>
      rw [absLookup_read (c := amendCache c) (by rw [hrm]; exact hq),
        absLookup_read hq]
      show slotVal ((amendCache c).slots i) = slotVal (c.slots i)
      rw [hsl i]
      exact dirtyLoop_slotVal c (readM c) i
    | none =>
      rw [absLookup_none_find (c := amendCache c) (by rw [hrm]; exact hq)
          hdd (mfind_filter_none hq _),
        absLookup_none_none hq hd]

theorem insertFresh_sim {c : Cache K V} (h : Inv c) {key : K}
    {d : List (K × Nat)} (value : V) (hd : c.dirty = some d)
    (hr : mfind (readM c) key = none) (hf : mfind d key = none) :
    Inv { (allocSlot c (Slot.value value)).2 with
      dirty := some (minsert d key c.next) } ∧
    absLookup { (allocSlot c (Slot.value value)).2 with
      dirty := some (minsert d key c.next) } =
      specUpdate (absLookup c) key (some value) := by
  set A : Cache K V := { (allocSlot c (Slot.value value)).2 with
    dirty := some (minsert d key c.next) } with hA
  have hrm : readM A = readM c := rfl
  have ham : readAmended A = readAmended c := rfl
  have hdd : A.dirty = some (minsert d key c.next) := rfl
  have hnx : A.next = c.next + 1 := rfl
  have hsn : A.slots c.next = Slot.value value := alloc_slots_self c _
  have hso : ∀ j, j ≠ c.next → A.slots j = c.slots j := by
    intro j hj
    exact alloc_slots_ne c hj _
  have hamT : readAmended c = true := by
    apply h.amendedIff.mpr
    rw [hd]
    intro hx; cases hx
  have hAss : ∀ k j, Assigned A k j →
      Assigned c k j ∨ (k = key ∧ j = c.next) := by
    intro k j hj
    rcases hj with hj | ⟨d0, hd0, hj⟩
    · rw [hrm] at hj
      exact Or.inl (Or.inl hj)
    · rw [hdd] at hd0
      injection hd0 with hd0
      rw [← hd0] at hj
      by_cases hk : k = key
      · subst hk
        rw [mfind_minsert_self] at hj
        injection hj with hj
        exact Or.inr ⟨rfl, hj.symm⟩
      · rw [mfind_minsert_ne d c.next hk] at hj
        exact Or.inl (Or.inr ⟨d, hd, hj⟩)
  refine ⟨⟨?_, ?_, ?_, ?_, ?_, ?_, ?_, ?_, ?_, ?_⟩, ?_⟩
  · rw [hrm]; exact h.readNodup
  · intro d0 hd0
    rw [hdd] at hd0
    injection hd0 with hd0
    rw [← hd0]
    exact keys_nodup_minsert (h.dirtyNodup d hd) key c.next
  · intro k i hm
    rw [hrm] at hm
    rw [hnx]
    exact Nat.lt_succ_of_lt (h.readBound k i hm)
  · intro d0 k i hd0 hm
    rw [hdd] at hd0
    injection hd0 with hd0
    rw [← hd0] at hm
    rw [hnx]
    by_cases hk : k = key
    · subst hk
      rw [mfind_minsert_self] at hm
      injection hm with hm
      rw [← hm]
      exact Nat.lt_succ_self _
    · rw [mfind_minsert_ne d c.next hk] at hm
      exact Nat.lt_succ_of_lt (h.dirtyBound d k i hd hm)
  · intro k1 k2 i h1 h2
    rcases hAss k1 i h1 with ha1 | ⟨he1, hi1⟩
    · rcases hAss k2 i h2 with ha2 | ⟨he2, hi2⟩
      · exact h.inj k1 k2 i ha1 ha2
      · subst hi2
        exact absurd (h.assigned_bound ha1) (Nat.lt_irrefl _)
    · rcases hAss k2 i h2 with ha2 | ⟨he2, hi2⟩
      · subst hi1
        exact absurd (h.assigned_bound ha2) (Nat.lt_irrefl _)
      · rw [he1, he2]
  · intro d0 k i j hd0 hm1 hm2
    rw [hrm] at hm1
    rw [hdd] at hd0
    injection hd0 with hd0
    rw [← hd0] at hm2
    by_cases hk : k = key
    · subst hk
      rw [hm1] at hr; cases hr
    · rw [mfind_minsert_ne d c.next hk] at hm2
      exact h.consistent d k i j hd hm1 hm2
  · rw [ham, hamT, hdd]
    simp
  · intro h0
    rw [hdd] at h0
    cases h0
  · intro d0 k i hd0 hm
    rw [hdd] at hd0
    injection hd0 with hd0
    rw [← hd0] at hm
    by_cases hk : k = key
    · subst hk
      rw [mfind_minsert_self] at hm
      injection hm with hm
      rw [← hm, hsn]
      intro hx; cases hx
    · rw [mfind_minsert_ne d c.next hk] at hm
      have hb := h.dirtyBound d k i hd hm
      rw [hso i (Nat.ne_of_lt hb)]
      exact h.dirtyNoExp d k i hd hm
  · intro d0 k i hd0 hm1 hne
    rw [hrm] at hm1
    rw [hdd] at hd0
    injection hd0 with hd0
    rw [← hd0]
    have hk : k ≠ key := by
      intro hx
      rw [hx, hr] at hm1
      cases hm1
    rw [mfind_minsert_ne d c.next hk]
    have hb := h.readBound k i hm1
    rw [hso i (Nat.ne_of_lt hb)] at hne
    exact h.subsetDirty d k i hd hm1 hne
  · funext k
    simp only [specUpdate]
    by_cases hk : k = key
    · rw [if_pos hk]
      subst hk
      rw [absLookup_dirtyFind (c := A) (by rw [hrm]; exact hr) hdd
          (mfind_minsert_self d k c.next)]
      show slotVal (A.slots c.next) = some value
      rw [hsn]
      rfl
    · rw [if_neg hk]
      cases hq : mfind (readM c) k with
      | some i =>
        rw [absLookup_read (c := A) (by rw [hrm]; exact hq), absLookup_read hq]
        show slotVal (A.slots i) = slotVal (c.slots i)
        rw [hso i (Nat.ne_of_lt (h.readBound k i hq))]
      | none =>
        cases hqd : mfind d k with
        | some i =>
          rw [absLookup_dirtyFind (c := A) (by rw [hrm]; exact hq) hdd
              (by rw [mfind_minsert_ne d c.next hk]; exact hqd),
            absLookup_dirtyFind hq hd hqd]
          show slotVal (A.slots i) = slotVal (c.slots i)
          rw [hso i (Nat.ne_of_lt (h.dirtyBound d k i hd hqd))]
        | none =>
          rw [absLookup_none_find (c := A) (by rw [hrm]; exact hq) hdd
              (by rw [mfind_minsert_ne d c.next hk]; exact hqd),
            absLookup_none_find hq hd hqd]

theorem storeNewKey_sim {c : Cache K V} (h : Inv c) {key : K} (value : V)
    (hr : mfind (readM c) key = none)
    (hdf : mfind (c.dirty.getD []) key = none) :
    Inv (storeNewKeyLocked c key value) ∧
    absLookup (storeNewKeyLocked c key value) =
      specUpdate (absLookup c) key (some value) := by
  cases ha : readAmended c with
  | false =>
    have hd := h.dirty_none_of_unamended ha
    obtain ⟨hinv1, habs1, hrm1, hdd1, hnx1⟩ := amend_sim h hd
    have hrk : mfind (readM (amendCache c)) key = none := by
      rw [hrm1]; exact hr
    have hfk : mfind ((readM c).filter
        (fun p => (slotVal (c.slots p.2)).isSome)) key = none :=
      mfind_filter_none hr _
    have hred : storeNewKeyLocked c key value =
        { (allocSlot (amendCache c) (Slot.value value)).2 with
          dirty := some (minsert ((readM c).filter
            (fun p => (slotVal (c.slots p.2)).isSome)) key
            (amendCache c).next) } := by
      simp only [storeNewKeyLocked]
      rw [ha, if_pos rfl,
        show ({ dirtyLocked c with read := some ⟨readM c, true⟩ } : Cache K V)
          = amendCache c from rfl,
        alloc_dirty, hdd1, alloc_fst]
      rfl
    obtain ⟨hinv2, habs2⟩ := insertFresh_sim hinv1 value hdd1 hrk hfk
    rw [hred]
    refine ⟨hinv2, ?_⟩
    rw [habs2, habs1]
  | true =>
    obtain ⟨d, hd⟩ := h.dirty_some_of_amended ha
    have hfk : mfind d key = none := by
      rw [hd] at hdf
      simpa using hdf
    have hred : storeNewKeyLocked c key value =
        { (allocSlot c (Slot.value value)).2 with
          dirty := some (minsert d key c.next) } := by
      simp only [storeNewKeyLocked]
      rw [ha]
      rw [if_neg (by simp)]
      rw [alloc_dirty, hd, alloc_fst]
      rfl
    obtain ⟨hinv2, habs2⟩ := insertFresh_sim h value hd hr hfk
    rw [hred]
    exact ⟨hinv2, habs2⟩

/-! ### The unexpunge branch of the slow paths -/

theorem unexpungeTail_eq {c : Cache K V} (key : K) {i : Nat}
    (he : c.slots i = Slot.expunged) {d0 : List (K × Nat)}
    (hd0 : c.dirty = some d0) :
    unexpungeTail c key i =
      { setSlot c i Slot.absent with dirty := some (minsert d0 key i) } := by
  simp only [unexpungeTail, getSlot]
  rw [he]
  simp only [unexpungeLocked, if_pos]
  rw [show (setSlot c i Slot.absent).dirty = some d0 from hd0]
  rfl

theorem unexpungeTail_eq_notExp {c : Cache K V} {key : K} {i : Nat}
    (he : c.slots i ≠ Slot.expunged) :
    unexpungeTail c key i = c := by
  simp only [unexpungeTail, getSlot]
  cases hs : c.slots i with
  | absent =>
    simp only [unexpungeLocked]
    rw [← hs, setSlot_self]
    simp
  | expunged => exact absurd hs he
  | value v =>
    simp only [unexpungeLocked]
    rw [← hs, setSlot_self]
    simp

theorem unexpunge_sim {c : Cache K V} (h : Inv c) {key : K} {i : Nat}
    {d0 : List (K × Nat)} (hr : mfind (readM c) key = some i)
    (he : c.slots i = Slot.expunged) (hd0 : c.dirty = some d0) :
    Inv { setSlot c i Slot.absent with dirty := some (minsert d0 key i) } ∧
    absLookup { setSlot c i Slot.absent with
      dirty := some (minsert d0 key i) } = absLookup c := by
  set B : Cache K V := { setSlot c i Slot.absent with
    dirty := some (minsert d0 key i) } with hB
  have hrm : readM B = readM c := rfl
  have ham : readAmended B = readAmended c := rfl
  have hdd : B.dirty = some (minsert d0 key i) := rfl
  have hnx : B.next = c.next := rfl
  have hsi : B.slots i = Slot.absent := by
    rw [hB]
    exact slots_setSlot_self c i Slot.absent
  have hso : ∀ j, j ≠ i → B.slots j = c.slots j := by
    intro j hj
    rw [hB]
    exact slots_setSlot_ne c hj _
  have hkey_not_d0 : mfind d0 key = none := h.expNotDirty hd0 hr he
  have hown : ∀ k j, Assigned c k j → j = i → k = key := by
    intro k j ha hj
    refine h.inj k key j ha (Or.inl ?_)
    rw [hj]
    exact hr
  have hAss : ∀ k j, Assigned B k j → Assigned c k j := by
    intro k j hj
    rcases hj with hj | ⟨d1, hd1, hj⟩
    · rw [hrm] at hj
      exact Or.inl hj
    · rw [hdd] at hd1
      injection hd1 with hd1
      rw [← hd1] at hj
      by_cases hk : k = key
      · subst hk
        rw [mfind_minsert_self] at hj
        injection hj with hj
        rw [← hj]
        exact Or.inl hr
      · rw [mfind_minsert_ne d0 i hk] at hj
        exact Or.inr ⟨d0, hd0, hj⟩
  refine ⟨⟨?_, ?_, ?_, ?_, ?_, ?_, ?_, ?_, ?_, ?_⟩, ?_⟩
  · rw [hrm]; exact h.readNodup
  · intro d1 hd1
    rw [hdd] at hd1
    injection hd1 with hd1
    rw [← hd1]
    exact keys_nodup_minsert (h.dirtyNodup d0 hd0) key i
  · intro k j hm
    rw [hrm] at hm
    rw [hnx]
    exact h.readBound k j hm
  · intro d1 k j hd1 hm
    rw [hdd] at hd1
    injection hd1 with hd1
    rw [← hd1] at hm
    rw [hnx]
    by_cases hk : k = key
    · subst hk
      rw [mfind_minsert_self] at hm
      injection hm with hm
      rw [← hm]
      exact h.readBound _ i hr
    · rw [mfind_minsert_ne d0 i hk] at hm
      exact h.dirtyBound d0 k j hd0 hm
  · intro k1 k2 j h1 h2
    exact h.inj k1 k2 j (hAss k1 j h1) (hAss k2 j h2)
  · intro d1 k a b hd1 hm1 hm2
    rw [hrm] at hm1
    rw [hdd] at hd1
    injection hd1 with hd1
    rw [← hd1] at hm2
    by_cases hk : k = key
    · subst hk
      rw [mfind_minsert_self] at hm2
      injection hm2 with hm2
      rw [hr] at hm1
      injection hm1 with hm1
      rw [← hm1, ← hm2]
    · rw [mfind_minsert_ne d0 i hk] at hm2
      exact h.consistent d0 k a b hd0 hm1 hm2
  · rw [ham, hdd]
    have hat : readAmended c = true := by
      apply h.amendedIff.mpr
      rw [hd0]
      intro hx; cases hx
    rw [hat]
    simp
  · intro h0
    rw [hdd] at h0
    cases h0
  · intro d1 k j hd1 hm
    rw [hdd] at hd1
    injection hd1 with hd1
    rw [← hd1] at hm
    by_cases hk : k = key
    · subst hk
      rw [mfind_minsert_self] at hm
      injection hm with hm
      rw [← hm, hsi]
      intro hx; cases hx
    · rw [mfind_minsert_ne d0 i hk] at hm
      have hji : j ≠ i := by
        intro hx
        exact hk (hown k j (Or.inr ⟨d0, hd0, hm⟩) hx)
      rw [hso j hji]
      exact h.dirtyNoExp d0 k j hd0 hm
  · intro d1 k j hd1 hm hne
    rw [hrm] at hm
    rw [hdd] at hd1
    injection hd1 with hd1
    rw [← hd1]
    by_cases hk : k = key
    · subst hk
      rw [hr] at hm
      injection hm with hm
      rw [← hm]
      exact mfind_minsert_self d0 _ i
    · have hji : j ≠ i := by
        intro hx
        exact hk (hown k j (Or.inl hm) hx)
      rw [hso j hji] at hne
      rw [mfind_minsert_ne d0 i hk]
      exact h.subsetDirty d0 k j hd0 hm hne
  · funext k
    by_cases hk : k = key
    · subst hk
      rw [absLookup_read (c := B) (by rw [hrm]; exact hr),
        absLookup_read hr, hsi, he]
      rfl
    · cases hq : mfind (readM c) k with
      | some a =>
        have hai : a ≠ i := by
          intro hx
          exact hk (hown k a (Or.inl hq) hx)
        rw [absLookup_read (c := B) (by rw [hrm]; exact hq),
          absLookup_read hq, hso a hai]
      | none =>
        cases hf : mfind d0 k with
        | some a =>
          have hai : a ≠ i := by
            intro hx
            exact hk (hown k a (Or.inr ⟨d0, hd0, hf⟩) hx)
          rw [absLookup_dirtyFind (c := B) (by rw [hrm]; exact hq) hdd
              (by rw [mfind_minsert_ne d0 i hk]; exact hf),
            absLookup_dirtyFind hq hd0 hf, hso a hai]
        | none =>
          rw [absLookup_none_find (c := B) (by rw [hrm]; exact hq) hdd
              (by rw [mfind_minsert_ne d0 i hk]; exact hf),
            absLookup_none_find hq hd0 hf]

/-! ### Erasing a key from the dirty map (LoadAndDelete slow path) -/

theorem missLocked_assigned_rev {c : Cache K V} {k : K} {j : Nat}
    (ha : Assigned (missLocked c) k j) : Assigned c k j := by
  cases hq : c.dirty with
  | some d =>
    rcases missLocked_eq_cases c hq with hm | hm <;> rw [hm] at ha
    · exact ha
    · exact promote_assigned hq ha
  | none =>
    rcases missLocked_cases c with hm | hm <;> rw [hm] at ha
    · exact ha
    · rcases ha with ha | ⟨d0, hd0, hj⟩
      · have ha' : mfind (c.dirty.getD []) k = some j := ha
        rw [hq] at ha'
        simp [mfind] at ha'
      · exact Option.noConfusion
          (show (none : Option (List (K × Nat))) = some d0 from hd0)

theorem eraseDirty_sim {c : Cache K V} (h : Inv c) {key : K}
    {d : List (K × Nat)} (hr : mfind (readM c) key = none)
    (hd : c.dirty = some d) :
    Inv { c with dirty := some (merase d key) } ∧
    absLookup { c with dirty := some (merase d key) } =
      specUpdate (absLookup c) key none ∧
    (∀ k j, Assigned { c with dirty := some (merase d key) } k j →
      Assigned c k j ∧ k ≠ key) := by
  set B : Cache K V := { c with dirty := some (merase d key) } with hB
  have hrm : readM B = readM c := rfl
  have ham : readAmended B = readAmended c := rfl
  have hdd : B.dirty = some (merase d key) := rfl
  have hnx : B.next = c.next := rfl
  have hsl : B.slots = c.slots := rfl
  have hat : readAmended c = true := by
    apply h.amendedIff.mpr
    rw [hd]
    intro hx; cases hx
  have hAss : ∀ k j, Assigned B k j → Assigned c k j ∧ k ≠ key := by
    intro k j hj
    rcases hj with hj | ⟨d1, hd1, hj⟩
    · rw [hrm] at hj
      refine ⟨Or.inl hj, ?_⟩
      intro hx
      rw [hx, hr] at hj
      cases hj
    · rw [hdd] at hd1
      injection hd1 with hd1
      rw [← hd1] at hj
      by_cases hk : k = key
      · rw [hk, mfind_merase_self] at hj
        cases hj
      · rw [mfind_merase_ne d hk] at hj
        exact ⟨Or.inr ⟨d, hd, hj⟩, hk⟩
  refine ⟨⟨?_, ?_, ?_, ?_, ?_, ?_, ?_, ?_, ?_, ?_⟩, ?_, hAss⟩
  · rw [hrm]; exact h.readNodup
  · intro d1 hd1
    rw [hdd] at hd1
    injection hd1 with hd1
    rw [← hd1]
    exact keys_nodup_merase (h.dirtyNodup d hd) key
  · intro k j hm
    rw [hrm] at hm
    rw [hnx]
    exact h.readBound k j hm
  · intro d1 k j hd1 hm
    rw [hdd] at hd1
    injection hd1 with hd1
    rw [← hd1] at hm
    rw [hnx]
    by_cases hk : k = key
    · rw [hk, mfind_merase_self] at hm
      cases hm
    · rw [mfind_merase_ne d hk] at hm
      exact h.dirtyBound d k j hd hm
  · intro k1 k2 j h1 h2
    exact h.inj k1 k2 j (hAss k1 j h1).1 (hAss k2 j h2).1
  · intro d1 k a b hd1 hm1 hm2
    rw [hrm] at hm1
    rw [hdd] at hd1
    injection hd1 with hd1
    rw [← hd1] at hm2
    by_cases hk : k = key
    · rw [hk, mfind_merase_self] at hm2
      cases hm2
    · rw [mfind_merase_ne d hk] at hm2
      exact h.consistent d k a b hd hm1 hm2
  · rw [ham, hat, hdd]
    simp
  · intro h0
    rw [hdd] at h0
    cases h0
  · intro d1 k j hd1 hm
    rw [hdd] at hd1
    injection hd1 with hd1
    rw [← hd1] at hm
    by_cases hk : k = key
    · rw [hk, mfind_merase_self] at hm
      cases hm
    · rw [mfind_merase_ne d hk] at hm
      rw [show B.slots j = c.slots j from rfl]
      exact h.dirtyNoExp d k j hd hm
  · intro d1 k j hd1 hm hne
    rw [hrm] at hm
    rw [hdd] at hd1
    injection hd1 with hd1
    rw [← hd1]
    have hk : k ≠ key := by
      intro hx
      rw [hx, hr] at hm
      cases hm
    rw [mfind_merase_ne d hk]
    rw [show B.slots j = c.slots j from rfl] at hne
    exact h.subsetDirty d k j hd hm hne
  · funext k
    simp only [specUpdate]
    by_cases hk : k = key
    · rw [if_pos hk]
      rw [hk]
      rw [absLookup_none_find (c := B) (by rw [hrm]; exact hr) hdd
        (mfind_merase_self d key)]
    · rw [if_neg hk]
      cases hq : mfind (readM c) k with
      | some a =>
        rw [absLookup_read (c := B) (by rw [hrm]; exact hq),
          absLookup_read hq]
      | none =>
        cases hf : mfind d k with
        | some a =>
          rw [absLookup_dirtyFind (c := B) (by rw [hrm]; exact hq) hdd
              (by rw [mfind_merase_ne d hk]; exact hf),
            absLookup_dirtyFind hq hd hf]
        | none =>
          rw [absLookup_none_find (c := B) (by rw [hrm]; exact hq) hdd
              (by rw [mfind_merase_ne d hk]; exact hf),
            absLookup_none_find hq hd hf]

/-! ### Per-operation simulation lemmas -/

theorem specLoad_eq_some {m : SpecMap K V} {k : K} {v : V}
    (hm : m k = some v) : specLoad m k = (v, true) := by
  simp [specLoad, hm]

theorem specLoad_eq_none {m : SpecMap K V} {k : K}
    (hm : m k = none) : specLoad m k = (default, false) := by
  simp [specLoad, hm]

theorem entryLoad_value {s : Slot V} {v : V} (hs : s = Slot.value v) :
    entryLoad s = (v, true) := by
  rw [hs]
  rfl

theorem entryLoad_noval {s : Slot V} (hs : slotVal s = none) :
    entryLoad s = (default, false) := by
  cases s with
  | absent => rfl
  | expunged => rfl
  | value v => cases hs

theorem load_sim {c : Cache K V} (h : Inv c) (key : K) :
    (Load c key).1 = specLoad (absLookup c) key ∧
    Inv (Load c key).2 ∧ absLookup (Load c key).2 = absLookup c := by
  cases hq : mfind (readM c) key with
  | some i =>
    have hL : Load c key = (entryLoad (getSlot c i), c) := by
      simp only [Load, hq]
    rw [hL]
    refine ⟨?_, h, rfl⟩
    have habs := absLookup_read hq
    cases hs : c.slots i with
    | value v =>
      rw [specLoad_eq_some (v := v) (by rw [habs, hs]; rfl)]
      exact entryLoad_value hs
    | absent =>
      rw [specLoad_eq_none (by rw [habs, hs]; rfl)]
      exact entryLoad_noval (by rw [getSlot, hs]; rfl)
    | expunged =>
      rw [specLoad_eq_none (by rw [habs, hs]; rfl)]
      exact entryLoad_noval (by rw [getSlot, hs]; rfl)
  | none =>
    cases hams : readAmended c with
    | true =>
      obtain ⟨d, hd⟩ := h.dirty_some_of_amended hams
      have hgd : c.dirty.getD [] = d := by rw [hd]; rfl
      obtain ⟨hmi, hma⟩ := missLocked_sim h hd
      cases hdf : mfind d key with
      | some i =>
        have hL : Load c key =
            (entryLoad (getSlot (missLocked c) i), missLocked c) := by
          simp only [Load, hq, hams, hgd, hdf, if_true]
        rw [hL]
        refine ⟨?_, hmi, hma⟩
        have habs := absLookup_dirtyFind hq hd hdf
        have hms : getSlot (missLocked c) i = c.slots i := by
          rw [getSlot, missLocked_slots]
        cases hs : c.slots i with
        | value v =>
          rw [specLoad_eq_some (v := v) (by rw [habs, hs]; rfl)]
          rw [hms]
          exact entryLoad_value hs
        | absent =>
          rw [specLoad_eq_none (by rw [habs, hs]; rfl)]
          rw [hms]
          exact entryLoad_noval (by rw [hs]; rfl)
        | expunged =>
          rw [specLoad_eq_none (by rw [habs, hs]; rfl)]
          rw [hms]
          exact entryLoad_noval (by rw [hs]; rfl)
      | none =>
        have hL : Load c key = ((default, false), missLocked c) := by
          simp only [Load, hq, hams, hgd, hdf, if_true]
        rw [hL]
        refine ⟨?_, hmi, hma⟩
        rw [specLoad_eq_none (absLookup_none_find hq hd hdf)]
    | false =>
      have hd := h.dirty_none_of_unamended hams
      have hL : Load c key = ((default, false), c) := by
        simp only [Load, hq, hams, Bool.false_eq_true, if_false]
      rw [hL]
      refine ⟨?_, h, rfl⟩
      rw [specLoad_eq_none (absLookup_none_none hq hd)]

theorem swap_sim {c : Cache K V} (h : Inv c) (key : K) (v : V) :
    (Swap c key v).1 = specLoad (absLookup c) key ∧
    Inv (Swap c key v).2 ∧
    absLookup (Swap c key v).2 = specUpdate (absLookup c) key (some v) := by
  cases hq : mfind (readM c) key with
  | some i =>
    have habs := absLookup_read hq
    cases hs : c.slots i with
    | value w =>
      have hL : Swap c key v = ((w, true), setSlot c i (Slot.value v)) := by
        simp only [Swap, hq, getSlot, hs, trySwap]
      rw [hL]
      refine ⟨?_, ?_, ?_⟩
      · rw [specLoad_eq_some (v := w) (by rw [habs, hs]; rfl)]
      · refine h.setSlotPres i (Slot.value v) ?_
        rw [hs]
        constructor <;> (intro hx; cases hx)
      · rw [absLookup_setSlot h (Or.inl hq) (Slot.value v)]
        rfl
    | absent =>
      have hL : Swap c key v =
          ((default, false), setSlot c i (Slot.value v)) := by
        simp only [Swap, hq, getSlot, hs, trySwap]
      rw [hL]
      refine ⟨?_, ?_, ?_⟩
      · rw [specLoad_eq_none (by rw [habs, hs]; rfl)]
      · refine h.setSlotPres i (Slot.value v) ?_
        rw [hs]
        constructor <;> (intro hx; cases hx)
      · rw [absLookup_setSlot h (Or.inl hq) (Slot.value v)]
        rfl
    | expunged =>
      have hd0 : ∃ d0, c.dirty = some d0 := by
        cases hc : c.dirty with
        | none => exact absurd hs (h.noExpNil hc key i hq)
        | some d0 => exact ⟨d0, rfl⟩
      obtain ⟨d0, hd0⟩ := hd0
      have hB := unexpungeTail_eq key hs hd0
      obtain ⟨hIB, haB⟩ := unexpunge_sim h hq hs hd0
      have hBs : ({ setSlot c i Slot.absent with
          dirty := some (minsert d0 key i) } : Cache K V).slots i =
          Slot.absent := slots_setSlot_self c i Slot.absent
      have hL : Swap c key v =
          ((default, false), setSlot
            ({ setSlot c i Slot.absent with
              dirty := some (minsert d0 key i) } : Cache K V) i
            (Slot.value v)) := by
        simp only [Swap, hq, getSlot, hs, trySwap, swapSlow, hB, swapLocked,
          hBs, derefNonNil]
      rw [hL]
      refine ⟨?_, ?_, ?_⟩
      · rw [specLoad_eq_none (by rw [habs, hs]; rfl)]
      · refine hIB.setSlotPres i (Slot.value v) ?_
        rw [hBs]
        constructor <;> (intro hx; cases hx)
      · rw [absLookup_setSlot hIB (Or.inl hq) (Slot.value v), haB]
        rfl
  | none =>
    cases hc : c.dirty with
    | some d =>
      have hgd : c.dirty.getD [] = d := by rw [hc]; rfl
      cases hdf : mfind d key with
      | some i =>
        have hne := h.dirtyNoExp d key i hc hdf
        have habs := absLookup_dirtyFind hq hc hdf
        have hL : Swap c key v =
            (derefNonNil (c.slots i), setSlot c i (Slot.value v)) := by
          simp only [Swap, hq, swapSlow, hgd, hdf, swapLocked, getSlot]
        rw [hL]
        refine ⟨?_, ?_, ?_⟩
        · cases hs : c.slots i with
          | value w =>
            rw [specLoad_eq_some (v := w) (by rw [habs, hs]; rfl)]
            rfl
          | absent =>
            rw [specLoad_eq_none (by rw [habs, hs]; rfl)]
            rfl
          | expunged => exact absurd hs hne
        · refine h.setSlotPres i (Slot.value v) ?_
          constructor
          · intro hx; exact absurd hx hne
          · intro hx; cases hx
        · rw [absLookup_setSlot h (Or.inr ⟨d, hc, hdf⟩) (Slot.value v)]
          rfl
      | none =>
        have hdf0 : mfind (c.dirty.getD []) key = none := by
          rw [hgd]; exact hdf
        obtain ⟨hIS, haS⟩ := storeNewKey_sim h v hq hdf0
        have hL : Swap c key v =
            ((default, false), storeNewKeyLocked c key v) := by
          simp only [Swap, hq, swapSlow, hgd, hdf]
        rw [hL]
        refine ⟨?_, hIS, haS⟩
        rw [specLoad_eq_none (absLookup_none_find hq hc hdf)]
    | none =>
      have hgd : c.dirty.getD [] = ([] : List (K × Nat)) := by rw [hc]; rfl
      have hdf : mfind ([] : List (K × Nat)) key = none := rfl
      have hdf0 : mfind (c.dirty.getD []) key = none := by
        rw [hgd]
        rfl
      obtain ⟨hIS, haS⟩ := storeNewKey_sim h v hq hdf0
      have hL : Swap c key v =
          ((default, false), storeNewKeyLocked c key v) := by
        simp only [Swap, hq, swapSlow, hgd, hdf]
      rw [hL]
      refine ⟨?_, hIS, haS⟩
      rw [specLoad_eq_none (absLookup_none_none hq hc)]

theorem loadOrStore_sim {c : Cache K V} (h : Inv c) (key : K) (v : V) :
    Inv (LoadOrStore c key v).2 ∧
    (absLookup c key = none →
      (LoadOrStore c key v).1 = (v, false) ∧
      absLookup (LoadOrStore c key v).2 =
        specUpdate (absLookup c) key (some v)) ∧
    (∀ w, absLookup c key = some w →
      (LoadOrStore c key v).1 = (w, true) ∧
      absLookup (LoadOrStore c key v).2 = absLookup c) := by
  cases hq : mfind (readM c) key with
  | some i =>
    have habs := absLookup_read hq
    cases hs : c.slots i with
    | value w =>
      have hL : LoadOrStore c key v = ((w, true), setSlot c i (Slot.value w)) := by
        simp only [LoadOrStore, hq, getSlot, hs, tryLoadOrStore, if_true]
      rw [hL, ← hs, setSlot_self]
      refine ⟨h, ?_, ?_⟩
      · intro hx
        rw [habs, hs] at hx
        cases hx
      · intro w0 hw0
        rw [habs, hs] at hw0
        injection hw0 with hw0
        exact ⟨by rw [hw0], rfl⟩
    | absent =>
      have hL : LoadOrStore c key v = ((v, false), setSlot c i (Slot.value v)) := by
        simp only [LoadOrStore, hq, getSlot, hs, tryLoadOrStore, if_true]
      rw [hL]
      refine ⟨?_, ?_, ?_⟩
      · refine h.setSlotPres i (Slot.value v) ?_
        rw [hs]
        constructor <;> (intro hx; cases hx)
      · intro hx
        refine ⟨rfl, ?_⟩
        rw [absLookup_setSlot h (Or.inl hq) (Slot.value v)]
        rfl
      · intro w0 hw0
        rw [habs, hs] at hw0
        cases hw0
    | expunged =>
      have hd0 : ∃ d0, c.dirty = some d0 := by
        cases hcd : c.dirty with
        | none => exact absurd hs (h.noExpNil hcd key i hq)
        | some d0 => exact ⟨d0, rfl⟩
      obtain ⟨d0, hd0⟩ := hd0
      have hB := unexpungeTail_eq key hs hd0
      obtain ⟨hIB, haB⟩ := unexpunge_sim h hq hs hd0
      have hBs : ({ setSlot c i Slot.absent with
          dirty := some (minsert d0 key i) } : Cache K V).slots i =
          Slot.absent := slots_setSlot_self c i Slot.absent
      have hL : LoadOrStore c key v =
          ((v, false), setSlot
            ({ setSlot c i Slot.absent with
              dirty := some (minsert d0 key i) } : Cache K V) i
            (Slot.value v)) := by
        simp only [LoadOrStore, hq, getSlot, hs, tryLoadOrStore,
          Bool.false_eq_true, if_false, loadOrStoreSlow, hB, hBs]
      rw [hL]
      refine ⟨?_, ?_, ?_⟩
      · refine hIB.setSlotPres i (Slot.value v) ?_
        rw [hBs]
        constructor <;> (intro hx; cases hx)
      · intro hx
        refine ⟨rfl, ?_⟩
        rw [absLookup_setSlot hIB (Or.inl hq) (Slot.value v), haB]
        rfl
      · intro w0 hw0
        rw [habs, hs] at hw0
        cases hw0
  | none =>
    cases hc : c.dirty with
    | some d =>
      have hgd : c.dirty.getD [] = d := by rw [hc]; rfl
      cases hdf : mfind d key with
      | some i =>
        have hne := h.dirtyNoExp d key i hc hdf
        have habs := absLookup_dirtyFind hq hc hdf
        cases hs : c.slots i with
        | expunged => exact absurd hs hne
        | value w =>
          have hL : LoadOrStore c key v =
              ((w, true), missLocked (setSlot c i (Slot.value w))) := by
            simp only [LoadOrStore, hq, loadOrStoreSlow, hgd, hdf, getSlot,
              hs, tryLoadOrStore]
          rw [hL, ← hs, setSlot_self]
          obtain ⟨hmi, hma⟩ := missLocked_sim h hc
          refine ⟨hmi, ?_, ?_⟩
          · intro hx
            rw [habs, hs] at hx
            cases hx
          · intro w0 hw0
            rw [habs, hs] at hw0
            injection hw0 with hw0
            exact ⟨by rw [hw0], hma⟩
        | absent =>
          have hI1 : Inv (setSlot c i (Slot.value v)) := by
            refine h.setSlotPres i (Slot.value v) ?_
            rw [hs]
            constructor <;> (intro hx; cases hx)
          have ha1 : absLookup (setSlot c i (Slot.value v)) =
              specUpdate (absLookup c) key (some v) := by
            rw [absLookup_setSlot h (Or.inr ⟨d, hc, hdf⟩) (Slot.value v)]
            rfl
          have hd1 : (setSlot c i (Slot.value v)).dirty = some d := by
            rw [dirty_setSlot]
            exact hc
          obtain ⟨hmi, hma⟩ := missLocked_sim hI1 hd1
          have hL : LoadOrStore c key v =
              ((v, false), missLocked (setSlot c i (Slot.value v))) := by
            simp only [LoadOrStore, hq, loadOrStoreSlow, hgd, hdf, getSlot,
              hs, tryLoadOrStore]
          rw [hL]
          refine ⟨hmi, ?_, ?_⟩
          · intro hx
            exact ⟨rfl, by rw [hma, ha1]⟩
          · intro w0 hw0
            rw [habs, hs] at hw0
            cases hw0
      | none =>
        have hdf0 : mfind (c.dirty.getD []) key = none := by
          rw [hgd]; exact hdf
        obtain ⟨hIS, haS⟩ := storeNewKey_sim h v hq hdf0
        have hL : LoadOrStore c key v =
            ((v, false), storeNewKeyLocked c key v) := by
          simp only [LoadOrStore, hq, loadOrStoreSlow, hgd, hdf]
        rw [hL]
        refine ⟨hIS, ?_, ?_⟩
        · intro hx
          exact ⟨rfl, haS⟩
        · intro w0 hw0
          rw [absLookup_none_find hq hc hdf] at hw0
          cases hw0
    | none =>
      have hgd : c.dirty.getD [] = ([] : List (K × Nat)) := by rw [hc]; rfl
      have hdf0 : mfind (c.dirty.getD []) key = none := by
        rw [hgd]
        rfl
      obtain ⟨hIS, haS⟩ := storeNewKey_sim h v hq hdf0
      have hL : LoadOrStore c key v =
          ((v, false), storeNewKeyLocked c key v) := by
        simp only [LoadOrStore, hq, loadOrStoreSlow, hgd]
        rfl
      rw [hL]
      refine ⟨hIS, ?_, ?_⟩
      · intro hx
        exact ⟨rfl, haS⟩
      · intro w0 hw0
        rw [absLookup_none_none hq hc] at hw0
        cases hw0

theorem specUpdate_none_of_none {m : SpecMap K V} {k : K} (hm : m k = none) :
    specUpdate m k none = m := by
  funext x
  simp only [specUpdate]
  by_cases hx : x = k
  · rw [if_pos hx, hx, hm]
  · rw [if_neg hx]

theorem loadAndDelete_sim {c : Cache K V} (h : Inv c) (key : K) :
    (LoadAndDelete c key).1 = specLoad (absLookup c) key ∧
    Inv (LoadAndDelete c key).2 ∧
    absLookup (LoadAndDelete c key).2 =
      specUpdate (absLookup c) key none := by
  cases hq : mfind (readM c) key with
  | some i =>
    have habs := absLookup_read hq
    cases hs : c.slots i with
    | value w =>
      have hL : LoadAndDelete c key = ((w, true), setSlot c i Slot.absent) := by
        simp only [LoadAndDelete, hq, getSlot, hs, entryDelete]
      rw [hL]
      refine ⟨?_, ?_, ?_⟩
      · rw [specLoad_eq_some (v := w) (by rw [habs, hs]; rfl)]
      · refine h.setSlotPres i Slot.absent ?_
        rw [hs]
        constructor <;> (intro hx; cases hx)
      · rw [absLookup_setSlot h (Or.inl hq) Slot.absent]
        rfl
    | absent =>
      have hL : LoadAndDelete c key =
          ((default, false), setSlot c i Slot.absent) := by
        simp only [LoadAndDelete, hq, getSlot, hs, entryDelete]
      rw [hL, ← hs, setSlot_self]
      refine ⟨?_, h, ?_⟩
      · rw [specLoad_eq_none (by rw [habs, hs]; rfl)]
      · rw [specUpdate_none_of_none (by rw [habs, hs]; rfl)]
    | expunged =>
      have hL : LoadAndDelete c key =
          ((default, false), setSlot c i Slot.expunged) := by
        simp only [LoadAndDelete, hq, getSlot, hs, entryDelete]
      rw [hL, ← hs, setSlot_self]
      refine ⟨?_, h, ?_⟩
      · rw [specLoad_eq_none (by rw [habs, hs]; rfl)]
      · rw [specUpdate_none_of_none (by rw [habs, hs]; rfl)]
  | none =>
    cases hams : readAmended c with
    | false =>
      have hd := h.dirty_none_of_unamended hams
      have hL : LoadAndDelete c key = ((default, false), c) := by
        simp only [LoadAndDelete, hq, hams, Bool.false_eq_true, if_false]
      rw [hL]
      refine ⟨?_, h, ?_⟩
      · rw [specLoad_eq_none (absLookup_none_none hq hd)]
      · rw [specUpdate_none_of_none (absLookup_none_none hq hd)]
    | true =>
      obtain ⟨d, hd⟩ := h.dirty_some_of_amended hams
      have hgd : c.dirty.getD [] = d := by rw [hd]; rfl
      have hmap : c.dirty.map (fun d0 => merase d0 key) =
          some (merase d key) := by
        rw [hd]
        rfl
      obtain ⟨hI1, ha1, hconv⟩ := eraseDirty_sim h hq hd
      have hd1 : ({ c with dirty := some (merase d key) } : Cache K V).dirty =
          some (merase d key) := rfl
      obtain ⟨hI2, ha2⟩ := missLocked_sim hI1 hd1
      have hsl2 : ∀ j, (missLocked ({ c with
          dirty := some (merase d key) } : Cache K V)).slots j = c.slots j := by
        intro j
        rw [missLocked_slots]
      have hun : ∀ i, Assigned c key i →
          ∀ k, ¬ Assigned (missLocked ({ c with
            dirty := some (merase d key) } : Cache K V)) k i := by
        intro i hai k hk
        have hk1 := missLocked_assigned_rev hk
        have hk2 := hconv k i hk1
        exact hk2.2 (h.inj k key i hk2.1 hai)
      cases hdf : mfind d key with
      | some i =>
        have hne := h.dirtyNoExp d key i hd hdf
        have habs := absLookup_dirtyFind hq hd hdf
        have hget : getSlot (missLocked ({ c with
            dirty := some (merase d key) } : Cache K V)) i = c.slots i := hsl2 i
        cases hs : c.slots i with
        | expunged => exact absurd hs hne
        | value w =>
          have hL : LoadAndDelete c key = ((w, true),
              setSlot (missLocked ({ c with
                dirty := some (merase d key) } : Cache K V)) i Slot.absent) := by
            simp only [LoadAndDelete, hq, hams, if_true, hmap, hgd, hdf,
              hget, hs, entryDelete]
          rw [hL]
          refine ⟨?_, ?_, ?_⟩
          · rw [specLoad_eq_some (v := w) (by rw [habs, hs]; rfl)]
          · refine hI2.setSlotPres i Slot.absent ?_
            rw [hsl2 i, hs]
            constructor <;> (intro hx; cases hx)
          · rw [absLookup_setSlot_unassigned
                (hun i (Or.inr ⟨d, hd, hdf⟩)) Slot.absent, ha2, ha1]
        | absent =>
          have hL : LoadAndDelete c key = ((default, false),
              setSlot (missLocked ({ c with
                dirty := some (merase d key) } : Cache K V)) i Slot.absent) := by
            simp only [LoadAndDelete, hq, hams, if_true, hmap, hgd, hdf,
              hget, hs, entryDelete]
          rw [hL]
          refine ⟨?_, ?_, ?_⟩
          · rw [specLoad_eq_none (by rw [habs, hs]; rfl)]
          · refine hI2.setSlotPres i Slot.absent ?_
            rw [hsl2 i, hs]
          · rw [absLookup_setSlot_unassigned
                (hun i (Or.inr ⟨d, hd, hdf⟩)) Slot.absent, ha2, ha1]
      | none =>
        have hL : LoadAndDelete c key = ((default, false),
            missLocked ({ c with
              dirty := some (merase d key) } : Cache K V)) := by
          simp only [LoadAndDelete, hq, hams, if_true, hmap, hgd, hdf]
        rw [hL]
        refine ⟨?_, hI2, ?_⟩
        · rw [specLoad_eq_none (absLookup_none_find hq hd hdf)]
        · rw [ha2, ha1]

theorem cas_sim {c : Cache K V} (h : Inv c) (key : K) (old nw : V) :
    Inv (CompareAndSwap c key old nw).2 ∧
    (absLookup c key = some old →
      (CompareAndSwap c key old nw).1 = true ∧
      absLookup (CompareAndSwap c key old nw).2 =
        specUpdate (absLookup c) key (some nw)) ∧
    (absLookup c key ≠ some old →
      (CompareAndSwap c key old nw).1 = false ∧
      absLookup (CompareAndSwap c key old nw).2 = absLookup c) := by
  cases hq : mfind (readM c) key with
  | some i =>
    have habs := absLookup_read hq
    cases hs : c.slots i with
    | value w =>
      by_cases hw : w = old
      · have hL : CompareAndSwap c key old nw =
            (true, setSlot c i (Slot.value nw)) := by
          simp only [CompareAndSwap, hq, getSlot, hs, tryCompareAndSwap,
            if_pos hw]
        rw [hL]
        refine ⟨?_, ?_, ?_⟩
        · refine h.setSlotPres i (Slot.value nw) ?_
          rw [hs]
          constructor <;> (intro hx; cases hx)
        · intro hx
          refine ⟨rfl, ?_⟩
          rw [absLookup_setSlot h (Or.inl hq) (Slot.value nw)]
          rfl
        · intro hx
          exact absurd (by rw [habs, hs, hw]; rfl) hx
      · have hL : CompareAndSwap c key old nw =
            (false, setSlot c i (Slot.value w)) := by
          simp only [CompareAndSwap, hq, getSlot, hs, tryCompareAndSwap,
            if_neg hw]
        rw [hL, ← hs, setSlot_self]
        refine ⟨h, ?_, ?_⟩
        · intro hx
          rw [habs, hs] at hx
          injection hx with hx
          exact absurd hx hw
        · intro hx
          exact ⟨rfl, rfl⟩
    | absent =>
      have hL : CompareAndSwap c key old nw =
          (false, setSlot c i Slot.absent) := by
        simp only [CompareAndSwap, hq, getSlot, hs, tryCompareAndSwap]
      rw [hL, ← hs, setSlot_self]
      refine ⟨h, ?_, ?_⟩
      · intro hx
        rw [habs, hs] at hx
        cases hx
      · intro hx
        exact ⟨rfl, rfl⟩
    | expunged =>
      have hL : CompareAndSwap c key old nw =
          (false, setSlot c i Slot.expunged) := by
        simp only [CompareAndSwap, hq, getSlot, hs, tryCompareAndSwap]
      rw [hL, ← hs, setSlot_self]
      refine ⟨h, ?_, ?_⟩
      · intro hx
        rw [habs, hs] at hx
        cases hx
      · intro hx
        exact ⟨rfl, rfl⟩
  | none =>
    cases hams : readAmended c with
    | false =>
      have hd := h.dirty_none_of_unamended hams
      have hL : CompareAndSwap c key old nw = (false, c) := by
        simp only [CompareAndSwap, hq, hams, if_true]
      rw [hL]
      refine ⟨h, ?_, ?_⟩
      · intro hx
        rw [absLookup_none_none hq hd] at hx
        cases hx
      · intro hx
        exact ⟨rfl, rfl⟩
    | true =>
      obtain ⟨d, hd⟩ := h.dirty_some_of_amended hams
      have hgd : c.dirty.getD [] = d := by rw [hd]; rfl
      cases hdf : mfind d key with
      | some i =>
        have hne := h.dirtyNoExp d key i hd hdf
        have habs := absLookup_dirtyFind hq hd hdf
        cases hs : c.slots i with
        | expunged => exact absurd hs hne
        | absent =>
          have hL : CompareAndSwap c key old nw =
              (false, missLocked (setSlot c i Slot.absent)) := by
            simp only [CompareAndSwap, hq, hams, Bool.true_eq_false,
              if_false, hgd, hdf, getSlot, hs, tryCompareAndSwap]
          rw [hL, ← hs, setSlot_self]
          obtain ⟨hmi, hma⟩ := missLocked_sim h hd
          refine ⟨hmi, ?_, ?_⟩
          · intro hx
            rw [habs, hs] at hx
            cases hx
          · intro hx
            exact ⟨rfl, hma⟩
        | value w =>
          by_cases hw : w = old
          · have hI1 : Inv (setSlot c i (Slot.value nw)) := by
              refine h.setSlotPres i (Slot.value nw) ?_
              rw [hs]
              constructor <;> (intro hx; cases hx)
            have ha1 : absLookup (setSlot c i (Slot.value nw)) =
                specUpdate (absLookup c) key (some nw) := by
              rw [absLookup_setSlot h (Or.inr ⟨d, hd, hdf⟩) (Slot.value nw)]
              rfl
            have hd1 : (setSlot c i (Slot.value nw)).dirty = some d := by
              rw [dirty_setSlot]
              exact hd
            obtain ⟨hmi, hma⟩ := missLocked_sim hI1 hd1
            have hL : CompareAndSwap c key old nw =
                (true, missLocked (setSlot c i (Slot.value nw))) := by
              simp only [CompareAndSwap, hq, hams, Bool.true_eq_false,
                if_false, hgd, hdf, getSlot, hs, tryCompareAndSwap, if_pos hw]
            rw [hL]
            refine ⟨hmi, ?_, ?_⟩
            · intro hx
              exact ⟨rfl, by rw [hma, ha1]⟩
            · intro hx
              exact absurd (by rw [habs, hs, hw]; rfl) hx
          · have hL : CompareAndSwap c key old nw =
                (false, missLocked (setSlot c i (Slot.value w))) := by
              simp only [CompareAndSwap, hq, hams, Bool.true_eq_false,
                if_false, hgd, hdf, getSlot, hs, tryCompareAndSwap, if_neg hw]
            rw [hL, ← hs, setSlot_self]
            obtain ⟨hmi, hma⟩ := missLocked_sim h hd
            refine ⟨hmi, ?_, ?_⟩
            · intro hx
              rw [habs, hs] at hx
              injection hx with hx
              exact absurd hx hw
            · intro hx
              exact ⟨rfl, hma⟩
      | none =>
        have hL : CompareAndSwap c key old nw = (false, c) := by
          simp only [CompareAndSwap, hq, hams, Bool.true_eq_false,
            if_false, hgd, hdf]
        rw [hL]
        refine ⟨h, ?_, ?_⟩
        · intro hx
          rw [absLookup_none_find hq hd hdf] at hx
          cases hx
        · intro hx
          exact ⟨rfl, rfl⟩

theorem cad_sim {c : Cache K V} (h : Inv c) (key : K) (old : V) :
    Inv (CompareAndDelete c key old).2 ∧
    (absLookup c key = some old →
      (CompareAndDelete c key old).1 = true ∧
      absLookup (CompareAndDelete c key old).2 =
        specUpdate (absLookup c) key none) ∧
    (absLookup c key ≠ some old →
      (CompareAndDelete c key old).1 = false ∧
      absLookup (CompareAndDelete c key old).2 = absLookup c) := by
  cases hq : mfind (readM c) key with
  | some i =>
    have habs := absLookup_read hq
    cases hs : c.slots i with
    | value w =>
      by_cases hw : w = old
      · have hL : CompareAndDelete c key old =
            (true, setSlot c i Slot.absent) := by
          simp only [CompareAndDelete, hq, getSlot, hs, if_pos hw]
        rw [hL]
        refine ⟨?_, ?_, ?_⟩
        · refine h.setSlotPres i Slot.absent ?_
          rw [hs]
          constructor <;> (intro hx; cases hx)
        · intro hx
          refine ⟨rfl, ?_⟩
          rw [absLookup_setSlot h (Or.inl hq) Slot.absent]
          rfl
        · intro hx
          exact absurd (by rw [habs, hs, hw]; rfl) hx
      · have hL : CompareAndDelete c key old = (false, c) := by
          simp only [CompareAndDelete, hq, getSlot, hs, if_neg hw]
        rw [hL]
        refine ⟨h, ?_, ?_⟩
        · intro hx
          rw [habs, hs] at hx
          injection hx with hx
          exact absurd hx hw
        · intro hx
          exact ⟨rfl, rfl⟩
    | absent =>
      have hL : CompareAndDelete c key old = (false, c) := by
        simp only [CompareAndDelete, hq, getSlot, hs]
      rw [hL]
      refine ⟨h, ?_, ?_⟩
      · intro hx
        rw [habs, hs] at hx
        cases hx
      · intro hx
        exact ⟨rfl, rfl⟩
    | expunged =>
      have hL : CompareAndDelete c key old = (false, c) := by
        simp only [CompareAndDelete, hq, getSlot, hs]
      rw [hL]
      refine ⟨h, ?_, ?_⟩
      · intro hx
        rw [habs, hs] at hx
        cases hx
      · intro hx
        exact ⟨rfl, rfl⟩
  | none =>
    cases hams : readAmended c with
    | false =>
      have hd := h.dirty_none_of_unamended hams
      have hL : CompareAndDelete c key old = (false, c) := by
        simp only [CompareAndDelete, hq, hams, Bool.false_eq_true, if_false]
      rw [hL]
      refine ⟨h, ?_, ?_⟩
      · intro hx
        rw [absLookup_none_none hq hd] at hx
        cases hx
      · intro hx
        exact ⟨rfl, rfl⟩
    | true =>
      obtain ⟨d, hd⟩ := h.dirty_some_of_amended hams
      have hgd : c.dirty.getD [] = d := by rw [hd]; rfl
      obtain ⟨hmi, hma⟩ := missLocked_sim h hd
      have hget : ∀ j, getSlot (missLocked c) j = c.slots j := by
        intro j
        rw [getSlot, missLocked_slots]
      cases hdf : mfind d key with
      | some i =>
        have hne := h.dirtyNoExp d key i hd hdf
        have habs := absLookup_dirtyFind hq hd hdf
        cases hs : c.slots i with
        | expunged => exact absurd hs hne
        | absent =>
          have hL : CompareAndDelete c key old = (false, missLocked c) := by
            simp only [CompareAndDelete, hq, hams, if_true, hgd, hdf,
              hget, hs]
          rw [hL]
          refine ⟨hmi, ?_, ?_⟩
          · intro hx
            rw [habs, hs] at hx
            cases hx
          · intro hx
            exact ⟨rfl, hma⟩
        | value w =>
          by_cases hw : w = old
          · have hass : Assigned (missLocked c) key i :=
              missLocked_assigned hd hdf
            have hsm : (missLocked c).slots i = Slot.value w := by
              rw [missLocked_slots]
              exact hs
            have hL : CompareAndDelete c key old =
                (true, setSlot (missLocked c) i Slot.absent) := by
              simp only [CompareAndDelete, hq, hams, if_true, hgd, hdf,
                hget, hs, if_pos hw]
            rw [hL]
            refine ⟨?_, ?_, ?_⟩
            · refine hmi.setSlotPres i Slot.absent ?_
              rw [hsm]
              constructor <;> (intro hx; cases hx)
            · intro hx
              refine ⟨rfl, ?_⟩
              rw [absLookup_setSlot hmi hass Slot.absent, hma]
              rfl
            · intro hx
              exact absurd (by rw [habs, hs, hw]; rfl) hx
          · have hL : CompareAndDelete c key old = (false, missLocked c) := by
              simp only [CompareAndDelete, hq, hams, if_true, hgd, hdf,
                hget, hs, if_neg hw]
            rw [hL]
            refine ⟨hmi, ?_, ?_⟩
            · intro hx
              rw [habs, hs] at hx
              injection hx with hx
              exact absurd hx hw
            · intro hx
              exact ⟨rfl, hma⟩
      | none =>
        have hL : CompareAndDelete c key old = (false, missLocked c) := by
          simp only [CompareAndDelete, hq, hams, if_true, hgd, hdf]
        rw [hL]
        refine ⟨hmi, ?_, ?_⟩
        · intro hx
          rw [absLookup_none_find hq hd hdf] at hx
          cases hx
        · intro hx
          exact ⟨rfl, hma⟩

/-! ### Whole-run simulation -/

theorem absLookup_empty : absLookup (emptyCache : Cache K V) = specEmpty := by
  funext k
  rfl

theorem step_sim {c : Cache K V} (h : Inv c) (op : Op K V) :
    (applyOp c op).1 = (specApply (absLookup c) op).1 ∧
    Inv (applyOp c op).2 ∧
    absLookup (applyOp c op).2 = (specApply (absLookup c) op).2 := by
  cases op with
  | load k =>
    obtain ⟨h1, h2, h3⟩ := load_sim h k
    simp only [applyOp, specApply]
    rw [h1, h3]
    exact ⟨rfl, h2, rfl⟩
  | store k v =>
    obtain ⟨h1, h2, h3⟩ := swap_sim h k v
    simp only [applyOp, specApply, Store]
    exact ⟨trivial, h2, h3⟩
  | swap k v =>
    obtain ⟨h1, h2, h3⟩ := swap_sim h k v
    simp only [applyOp, specApply]
    rw [h1, h3]
    exact ⟨rfl, h2, rfl⟩
  | loadOrStore k v =>
    obtain ⟨h2, hnone, hsome⟩ := loadOrStore_sim h k v
    simp only [applyOp, specApply]
    cases habs : absLookup c k with
    | none =>
      obtain ⟨e1, e2⟩ := hnone habs
      rw [e1, e2]
      exact ⟨rfl, h2, rfl⟩
    | some w =>
      obtain ⟨e1, e2⟩ := hsome w habs
      rw [e1, e2]
      exact ⟨rfl, h2, rfl⟩
  | del k =>
    obtain ⟨h1, h2, h3⟩ := loadAndDelete_sim h k
    simp only [applyOp, specApply, Delete]
    exact ⟨trivial, h2, h3⟩
  | loadAndDelete k =>
    obtain ⟨h1, h2, h3⟩ := loadAndDelete_sim h k
    simp only [applyOp, specApply]
    rw [h1, h3]
    exact ⟨rfl, h2, rfl⟩
  | cas k old nw =>
    obtain ⟨h2, htrue, hfalse⟩ := cas_sim h k old nw
    simp only [applyOp, specApply]
    by_cases habs : absLookup c k = some old
    · obtain ⟨e1, e2⟩ := htrue habs
      rw [if_pos habs, e1, e2]
      exact ⟨by trivial, h2, by trivial⟩
    · obtain ⟨e1, e2⟩ := hfalse habs
      rw [if_neg habs, e1, e2]
      exact ⟨by trivial, h2, by trivial⟩
  | cad k old =>
    obtain ⟨h2, htrue, hfalse⟩ := cad_sim h k old
    simp only [applyOp, specApply]
    by_cases habs : absLookup c k = some old
    · obtain ⟨e1, e2⟩ := htrue habs
      rw [if_pos habs, e1, e2]
      exact ⟨by trivial, h2, by trivial⟩
    · obtain ⟨e1, e2⟩ := hfalse habs
      rw [if_neg habs, e1, e2]
      exact ⟨by trivial, h2, by trivial⟩

theorem run_sim {c : Cache K V} (h : Inv c) (ops : List (Op K V)) :
    (runOps c ops).1 = (specRun (absLookup c) ops).1 ∧
    Inv (runOps c ops).2 ∧
    absLookup (runOps c ops).2 = (specRun (absLookup c) ops).2 := by
  induction ops generalizing c with
  | nil => exact ⟨rfl, h, rfl⟩
  | cons op t ih =>
    obtain ⟨h1, h2, h3⟩ := step_sim h op
    obtain ⟨g1, g2, g3⟩ := ih h2
    simp only [runOps, specRun]
    refine ⟨?_, g2, ?_⟩
    · rw [h1, g1, h3]
    · rw [g3, h3]

theorem reachable_inv {c : Cache K V} (hr : Reachable c) : Inv c := by
  obtain ⟨ops, hops⟩ := hr
  rw [← hops]
  exact (run_sim inv_empty ops).2.1

/-! ### Range: trace characterization -/

theorem slotVal_eq_some {s : Slot V} {v : V} :
    slotVal s = some v ↔ s = Slot.value v := by
  cases s with
  | absent => simp [slotVal]
  | expunged => simp [slotVal]
  | value w =>
    simp only [slotVal]
    constructor
    · intro hx
      injection hx with hx
      rw [hx]
    · intro hx
      injection hx with hx
      rw [hx]

theorem rangeLoop_true {c0 : Cache K V} {f : K → V → Bool}
    (hf : ∀ k v, f k v = true) (l : List (K × Nat)) :
    rangeLoop c0 f l = l.filterMap (fun p =>
      match c0.slots p.2 with
      | Slot.value v => some (p.1, v)
      | _ => none) := by
  induction l with
  | nil => rfl
  | cons p t ih =>
    rcases p with ⟨k, i⟩
    cases hs : c0.slots i with
    | value v =>
      simp only [rangeLoop, getSlot, hs, entryLoad, if_true, hf k v,
        List.filterMap_cons, ih]
    | absent =>
      simp only [rangeLoop, getSlot, hs, entryLoad, Bool.false_eq_true,
        if_false, List.filterMap_cons, ih]
    | expunged =>
      simp only [rangeLoop, getSlot, hs, entryLoad, Bool.false_eq_true,
        if_false, List.filterMap_cons, ih]

theorem rangeLoop_mem {c0 : Cache K V} {f : K → V → Bool}
    (hf : ∀ k v, f k v = true) (l : List (K × Nat)) (k : K) (v : V) :
    (k, v) ∈ rangeLoop c0 f l ↔
      ∃ i, (k, i) ∈ l ∧ c0.slots i = Slot.value v := by
  rw [rangeLoop_true hf]
  rw [List.mem_filterMap]
  constructor
  · rintro ⟨⟨k0, i⟩, hm, he⟩
    cases hs : c0.slots i with
    | value w =>
      simp only [hs] at he
      injection he with he1
      have hk : k0 = k := congrArg Prod.fst he1
      have hv : w = v := congrArg Prod.snd he1
      rw [hk] at hm
      rw [hv] at hs
      exact ⟨i, hm, hs⟩
    | absent =>
      simp only [hs] at he
      cases he
    | expunged =>
      simp only [hs] at he
      cases he
  · rintro ⟨i, hm, hs⟩
    exact ⟨(k, i), hm, by simp only [hs]⟩

theorem rangeLoop_keys_sublist (c0 : Cache K V) (f : K → V → Bool)
    (l : List (K × Nat)) :
    List.Sublist ((rangeLoop c0 f l).map Prod.fst) (l.map Prod.fst) := by
  induction l with
  | nil => simp [rangeLoop]
  | cons p t ih =>
    rcases p with ⟨k, i⟩
    cases hs : c0.slots i with
    | value v =>
      by_cases hfv : f k v = true
      · have hred : rangeLoop c0 f ((k, i) :: t) =
            (k, v) :: rangeLoop c0 f t := by
          simp [rangeLoop, getSlot, hs, entryLoad, hfv]
        rw [hred, List.map_cons, List.map_cons]
        exact List.Sublist.cons₂ k ih
      · have hred : rangeLoop c0 f ((k, i) :: t) = [(k, v)] := by
          simp [rangeLoop, getSlot, hs, entryLoad, hfv]
        rw [hred, List.map_cons]
        exact List.Sublist.cons₂ k (List.nil_sublist _)
    | absent =>
      have hred : rangeLoop c0 f ((k, i) :: t) = rangeLoop c0 f t := by
        simp [rangeLoop, getSlot, hs, entryLoad]
      rw [hred, List.map_cons]
      exact List.Sublist.cons k ih
    | expunged =>
      have hred : rangeLoop c0 f ((k, i) :: t) = rangeLoop c0 f t := by
        simp [rangeLoop, getSlot, hs, entryLoad]
      rw [hred, List.map_cons]
      exact List.Sublist.cons k ih

theorem rangeLoop_stops (c0 : Cache K V) (f : K → V → Bool)
    (l : List (K × Nat)) :
    ∀ p ∈ (rangeLoop c0 f l).dropLast, f p.1 p.2 = true := by
  induction l with
  | nil => intro p hp; simp [rangeLoop] at hp
  | cons q t ih =>
    rcases q with ⟨k, i⟩
    cases hs : c0.slots i with
    | absent =>
      have hred : rangeLoop c0 f ((k, i) :: t) = rangeLoop c0 f t := by
        simp [rangeLoop, getSlot, hs, entryLoad]
      rw [hred]
      exact ih
    | expunged =>
      have hred : rangeLoop c0 f ((k, i) :: t) = rangeLoop c0 f t := by
        simp [rangeLoop, getSlot, hs, entryLoad]
      rw [hred]
      exact ih
    | value v =>
      by_cases hfv : f k v = true
      · have hred : rangeLoop c0 f ((k, i) :: t) =
            (k, v) :: rangeLoop c0 f t := by
          simp [rangeLoop, getSlot, hs, entryLoad, hfv]
        rw [hred]
        cases hrest : rangeLoop c0 f t with
        | nil =>
          intro p hp
          simp [List.dropLast] at hp
        | cons q2 t2 =>
          intro p hp
          rw [List.dropLast_cons₂] at hp
          rcases List.mem_cons.mp hp with hp | hp
          · rw [hp]
            exact hfv
          · rw [hrest] at ih
            exact ih p hp
      · have hred : rangeLoop c0 f ((k, i) :: t) = [(k, v)] := by
          simp [rangeLoop, getSlot, hs, entryLoad, hfv]
        rw [hred]
        intro p hp
        simp [List.dropLast] at hp

theorem mem_readM_abs {c : Cache K V} (h : Inv c) (hd : c.dirty = none)
    (k : K) (v : V) :
    (∃ i, (k, i) ∈ readM c ∧ c.slots i = Slot.value v) ↔
      absLookup c k = some v := by
  constructor
  · rintro ⟨i, hm, hs⟩
    have hf := mem_mfind h.readNodup hm
    rw [absLookup_read hf, hs]
    rfl
  · intro habs
    cases hq : mfind (readM c) k with
    | some i =>
      rw [absLookup_read hq] at habs
      exact ⟨i, mfind_mem hq, slotVal_eq_some.mp habs⟩
    | none =>
      rw [absLookup_none_none hq hd] at habs
      cases habs

theorem mem_dirty_abs {c : Cache K V} (h : Inv c) {d : List (K × Nat)}
    (hd : c.dirty = some d) (k : K) (v : V) :
    (∃ i, (k, i) ∈ d ∧ c.slots i = Slot.value v) ↔
      absLookup c k = some v := by
  constructor
  · rintro ⟨i, hm, hs⟩
    have hf := mem_mfind (h.dirtyNodup d hd) hm
    cases hq : mfind (readM c) k with
    | some j =>
      have hij := h.consistent d k j i hd hq hf
      rw [absLookup_read hq, hij, hs]
      rfl
    | none =>
      rw [absLookup_dirtyFind hq hd hf, hs]
      rfl
  · intro habs
    cases hq : mfind (readM c) k with
    | some j =>
      rw [absLookup_read hq] at habs
      have hsj := slotVal_eq_some.mp habs
      have hne : c.slots j ≠ Slot.expunged := by
        rw [hsj]
        intro hx; cases hx
      have hsub := h.subsetDirty d k j hd hq hne
      exact ⟨j, mfind_mem hsub, hsj⟩
    | none =>
      cases hf : mfind d k with
      | some j =>
        rw [absLookup_dirtyFind hq hd hf] at habs
        exact ⟨j, mfind_mem hf, slotVal_eq_some.mp habs⟩
      | none =>
        rw [absLookup_none_find hq hd hf] at habs
        cases habs

theorem cad_dirty_frame (c : Cache K V) (k : K) (old : V) :
    (CompareAndDelete c k old).2.dirty = c.dirty ∨
    ((CompareAndDelete c k old).2.dirty = none ∧
      (CompareAndDelete c k old).2.read = some ⟨c.dirty.getD [], false⟩) := by
  cases hq : mfind (readM c) k with
  | some i =>
    cases hs : c.slots i with
    | value v =>
      by_cases hw : v = old
      · have hL : (CompareAndDelete c k old).2 = setSlot c i Slot.absent := by
          simp only [CompareAndDelete, hq, getSlot, hs, if_pos hw]
        rw [hL, dirty_setSlot]
        exact Or.inl rfl
      · have hL : (CompareAndDelete c k old).2 = c := by
          simp only [CompareAndDelete, hq, getSlot, hs, if_neg hw]
        rw [hL]
        exact Or.inl rfl
    | absent =>
      have hL : (CompareAndDelete c k old).2 = c := by
        simp only [CompareAndDelete, hq, getSlot, hs]
      rw [hL]
      exact Or.inl rfl
    | expunged =>
      have hL : (CompareAndDelete c k old).2 = c := by
        simp only [CompareAndDelete, hq, getSlot, hs]
      rw [hL]
      exact Or.inl rfl
  | none =>
    cases hams : readAmended c with
    | false =>
      have hL : (CompareAndDelete c k old).2 = c := by
        simp only [CompareAndDelete, hq, hams, Bool.false_eq_true, if_false]
      rw [hL]
      exact Or.inl rfl
    | true =>
      have hget : ∀ j, getSlot (missLocked c) j = c.slots j := by
        intro j
        rw [getSlot, missLocked_slots]
      have hmcases :
          ((missLocked c).dirty = c.dirty ∧ (missLocked c).read = c.read) ∨
          ((missLocked c).dirty = none ∧
            (missLocked c).read = some ⟨c.dirty.getD [], false⟩) := by
        rcases missLocked_cases c with hm | hm <;> rw [hm]
        · exact Or.inl ⟨rfl, rfl⟩
        · exact Or.inr ⟨rfl, rfl⟩
      cases hdf : mfind (c.dirty.getD []) k with
      | none =>
        have hL : (CompareAndDelete c k old).2 = missLocked c := by
          simp only [CompareAndDelete, hq, hams, if_true, hdf]
        rw [hL]
        rcases hmcases with ⟨hd1, _⟩ | ⟨hd1, hr1⟩
        · exact Or.inl hd1
        · exact Or.inr ⟨hd1, hr1⟩
      | some i =>
        cases hs : c.slots i with
        | value v =>
          by_cases hw : v = old
          · have hL : (CompareAndDelete c k old).2 =
                setSlot (missLocked c) i Slot.absent := by
              simp only [CompareAndDelete, hq, hams, if_true, hdf, hget,
                hs, if_pos hw]
            rw [hL, dirty_setSlot]
            rcases hmcases with ⟨hd1, hr1⟩ | ⟨hd1, hr1⟩
            · exact Or.inl hd1
            · right
              refine ⟨hd1, ?_⟩
              rw [show (setSlot (missLocked c) i Slot.absent).read =
                (missLocked c).read from rfl, hr1]
          · have hL : (CompareAndDelete c k old).2 = missLocked c := by
              simp only [CompareAndDelete, hq, hams, if_true, hdf, hget,
                hs, if_neg hw]
            rw [hL]
            rcases hmcases with ⟨hd1, _⟩ | ⟨hd1, hr1⟩
            · exact Or.inl hd1
            · exact Or.inr ⟨hd1, hr1⟩
        | absent =>
          have hL : (CompareAndDelete c k old).2 = missLocked c := by
            simp only [CompareAndDelete, hq, hams, if_true, hdf, hget, hs]
          rw [hL]
          rcases hmcases with ⟨hd1, _⟩ | ⟨hd1, hr1⟩
          · exact Or.inl hd1
          · exact Or.inr ⟨hd1, hr1⟩
        | expunged =>
          have hL : (CompareAndDelete c k old).2 = missLocked c := by
            simp only [CompareAndDelete, hq, hams, if_true, hdf, hget, hs]
          rw [hL]
          rcases hmcases with ⟨hd1, _⟩ | ⟨hd1, hr1⟩
          · exact Or.inl hd1
          · exact Or.inr ⟨hd1, hr1⟩

/-! ### Claim theorems -/

/-- C1: For every finite sequence of operations (Load/Get, Store/Put, Swap,
LoadOrStore, Delete, LoadAndDelete, CompareAndSwap, CompareAndDelete)
applied sequentially to an initially empty (zero-value) `Cache`, every
returned result and the final key-value contents equal those of a
reference sequential simulation over a plain map; in particular, whether
or when internal promotions of the write buffer into the read snapshot
occur during the sequence is never observable in any operation's result
(the reference simulation performs no promotions at all). -/
theorem c1_sequential_refinement (ops : List (Op K V)) :
    (runOps (emptyCache : Cache K V) ops).1 =
      (specRun (specEmpty : SpecMap K V) ops).1 ∧
    ∀ k, absLookup (runOps (emptyCache : Cache K V) ops).2 k =
      (specRun (specEmpty : SpecMap K V) ops).2 k := by
  obtain ⟨h1, _, h3⟩ := run_sim (inv_empty (K := K) (V := V)) ops
  rw [absLookup_empty] at h1 h3
  exact ⟨h1, fun k => by rw [h3]⟩

/-- C2: For every key `k` and value `v`, immediately after
`Store(k, v)` (implemented as `Swap`) returns on a `Cache` in any
reachable state, a subsequent `Load(k)` with no intervening operation on
`k` returns `(v, true)`. -/
theorem c2_store_then_load {c : Cache K V} (hR : Reachable c) (k : K)
    (v : V) : (Load (Store c k v) k).1 = (v, true) := by
  have h := reachable_inv hR
  obtain ⟨_, h2, h3⟩ := swap_sim h k v
  show (Load (Swap c k v).2 k).1 = (v, true)
  obtain ⟨g1, _, _⟩ := load_sim h2 k
  rw [g1, h3, specLoad_eq_some (v := v) (by simp [specUpdate])]

theorem c2_store_then_load_witness :
    (Load (Store (emptyCache : Cache Nat Nat) 1 5) 1).1 = (5, true) :=
  c2_store_then_load ⟨[], rfl⟩ 1 5

/-- C3: For every key `k` not currently present in a reachable `Cache`
and all values `v1`, `v2`, calling `LoadOrStore(k, v1)` and then
`LoadOrStore(k, v2)` returns `(v1, false)` and then `(v1, true)`; the
second call leaves the stored value `v1` unchanged (it never
overwrites). -/
theorem c3_loadOrStore_idempotent {c : Cache K V} (hR : Reachable c)
    (k : K) (habs : absLookup c k = none) (v1 v2 : V) :
    (LoadOrStore c k v1).1 = (v1, false) ∧
    (LoadOrStore (LoadOrStore c k v1).2 k v2).1 = (v1, true) ∧
    absLookup (LoadOrStore (LoadOrStore c k v1).2 k v2).2 k = some v1 := by
  have h := reachable_inv hR
  obtain ⟨h2, hnone, _⟩ := loadOrStore_sim h k v1
  obtain ⟨e1, e2⟩ := hnone habs
  have habs1 : absLookup (LoadOrStore c k v1).2 k = some v1 := by
    rw [e2]
    simp [specUpdate]
  obtain ⟨_, _, hsome⟩ := loadOrStore_sim h2 k v2
  obtain ⟨f1, f2⟩ := hsome v1 habs1
  refine ⟨e1, f1, ?_⟩
  rw [f2, habs1]

theorem c3_loadOrStore_idempotent_witness :
    (LoadOrStore (emptyCache : Cache Nat Nat) 1 5).1 = (5, false) ∧
    (LoadOrStore (LoadOrStore (emptyCache : Cache Nat Nat) 1 5).2 1 9).1 =
      (5, true) ∧
    absLookup (LoadOrStore (LoadOrStore (emptyCache : Cache Nat Nat)
      1 5).2 1 9).2 1 = some 5 :=
  c3_loadOrStore_idempotent ⟨[], rfl⟩ 1 rfl 5 9

/-- C4: On the equality-comparable variant, for every key `k` and values
`old`, `nw`: `CompareAndSwap(k, old, nw)` returns true exactly when `k`
is currently mapped to `old` (so it returns false whenever `k` is absent
or its value differs from `old`); it never adds or removes a key (the set
of present keys is unchanged); and when it returns true a subsequent
`Load(k)` returns `(nw, true)`. -/
theorem c4_compareAndSwap {c : Cache K V} (hR : Reachable c) (k : K)
    (old nw : V) :
    ((CompareAndSwap c k old nw).1 = true ↔ absLookup c k = some old) ∧
    (∀ x, (absLookup (CompareAndSwap c k old nw).2 x).isSome =
      (absLookup c x).isSome) ∧
    ((CompareAndSwap c k old nw).1 = true →
      (Load (CompareAndSwap c k old nw).2 k).1 = (nw, true)) := by
  have h := reachable_inv hR
  obtain ⟨h2, htrue, hfalse⟩ := cas_sim h k old nw
  by_cases habs : absLookup c k = some old
  · obtain ⟨e1, e2⟩ := htrue habs
    refine ⟨⟨fun _ => habs, fun _ => e1⟩, ?_, ?_⟩
    · intro x
      rw [e2]
      simp only [specUpdate]
      by_cases hx : x = k
      · rw [if_pos hx, hx, habs]
        rfl
      · rw [if_neg hx]
    · intro _
      obtain ⟨g1, _, _⟩ := load_sim h2 k
      rw [g1, e2, specLoad_eq_some (v := nw) (by simp [specUpdate])]
  · obtain ⟨e1, e2⟩ := hfalse habs
    refine ⟨?_, ?_, ?_⟩
    · constructor
      · intro hx
        rw [e1] at hx
        cases hx
      · intro hx
        exact absurd hx habs
    · intro x
      rw [e2]
    · intro hx
      rw [e1] at hx
      cases hx

theorem c4_compareAndSwap_witness :
    ((CompareAndSwap (runOps (emptyCache : Cache Nat Nat)
      [Op.store 1 5]).2 1 5 7).1 = true) ∧
    ((Load (CompareAndSwap (runOps (emptyCache : Cache Nat Nat)
      [Op.store 1 5]).2 1 5 7).2 1).1 = (7, true)) ∧
    ((absLookup (CompareAndSwap (runOps (emptyCache : Cache Nat Nat)
      [Op.store 1 5]).2 1 5 7).2 2).isSome =
      (absLookup (runOps (emptyCache : Cache Nat Nat)
        [Op.store 1 5]).2 2).isSome) := by
  have h := c4_compareAndSwap
    (c := (runOps (emptyCache : Cache Nat Nat) [Op.store 1 5]).2)
    ⟨[Op.store 1 5], rfl⟩ 1 5 7
  have ht : (CompareAndSwap (runOps (emptyCache : Cache Nat Nat)
      [Op.store 1 5]).2 1 5 7).1 = true := h.1.mpr (by decide)
  exact ⟨ht, h.2.2 ht, h.2.1 2⟩

/-- C5: `missLocked` (the slow-path miss bookkeeping) increments the miss
counter, and as soon as the incremented counter is greater than or equal
to the size of the write buffer (the dirty map), it publishes the write
buffer as the new snapshot with `amended = false`, sets the write buffer
to nil and resets the counter to 0; when the incremented counter is still
below the threshold, the snapshot and the write buffer are unchanged and
only the counter has been incremented. -/
theorem c5_missLocked_promotion (c : Cache K V) :
    (c.misses + 1 < dirtySize c →
      (missLocked c).misses = c.misses + 1 ∧
      (missLocked c).read = c.read ∧ (missLocked c).dirty = c.dirty) ∧
    (dirtySize c ≤ c.misses + 1 →
      (missLocked c).read = some ⟨c.dirty.getD [], false⟩ ∧
      (missLocked c).dirty = none ∧ (missLocked c).misses = 0) := by
  constructor
  · intro hlt
    have hL : missLocked c = { c with misses := c.misses + 1 } := by
      unfold missLocked dirtySize
      rw [if_pos]
      exact hlt
    rw [hL]
    exact ⟨rfl, rfl, rfl⟩
  · intro hge
    have hL : missLocked c = { c with read := some ⟨c.dirty.getD [], false⟩, dirty := none, misses := 0 } := by
      unfold missLocked dirtySize
      rw [if_neg]
      intro hx
      exact absurd hge (Nat.not_le_of_lt hx)
    rw [hL]
    exact ⟨rfl, rfl, rfl⟩

theorem c5_missLocked_promotion_witness :
    (missLocked (runOps (emptyCache : Cache Nat Nat)
      [Op.store 1 5, Op.store 2 6]).2).misses = 1 ∧
    (missLocked (runOps (emptyCache : Cache Nat Nat)
      [Op.store 1 5]).2).dirty = none ∧
    (missLocked (runOps (emptyCache : Cache Nat Nat)
      [Op.store 1 5]).2).read = some ⟨[(1, 0)], false⟩ := by
  refine ⟨((c5_missLocked_promotion _).1 (by decide)).1, ?_, ?_⟩
  · exact ((c5_missLocked_promotion (runOps (emptyCache : Cache Nat Nat)
      [Op.store 1 5]).2).2 (by decide)).2.1
  · have h := ((c5_missLocked_promotion (runOps (emptyCache : Cache Nat Nat)
      [Op.store 1 5]).2).2 (by decide)).1
    rw [h]
    decide

/-- C6: In every reachable state of the `Cache`, whenever the write
buffer (dirty map) is non-nil, every key of the current snapshot whose
slot is not expunged is also present in the write buffer, mapped to the
same slot; reachability is closed under the public operations, so every
public operation preserves this invariant. -/
theorem c6_snapshot_subset_dirty {c : Cache K V} (hR : Reachable c)
    {d : List (K × Nat)} (hd : c.dirty = some d) (k : K) (i : Nat)
    (hm : mfind (readM c) k = some i) (hne : c.slots i ≠ Slot.expunged) :
    mfind d k = some i :=
  (reachable_inv hR).subsetDirty d k i hd hm hne

theorem c6_snapshot_subset_dirty_witness :
    mfind [(1, 0), (2, 1)] 1 = some 0 :=
  c6_snapshot_subset_dirty
    (c := (runOps (emptyCache : Cache Nat Nat)
      [Op.store 1 5, Op.load 9, Op.store 2 6]).2)
    ⟨[Op.store 1 5, Op.load 9, Op.store 2 6], rfl⟩
    (by decide) 1 0 (by decide) (by decide)

/-- C7 counterexample: `CompareAndDelete` can change the dirty map's key
set. Starting from the zero cache, after `Store(1, 5)` the dirty map is
`[(1, 0)]`; a `CompareAndDelete(2, 7)` on the absent key `2` records a
miss that reaches the promotion threshold, so the entire write buffer is
promoted and the dirty map becomes nil — its key set changes from `{1}`
to the empty set, refuting the claim that the dirty map's key set is
unchanged by `CompareAndDelete`. -/
theorem c7_counterexample :
    ((runOps (emptyCache : Cache Nat Nat) [Op.store 1 5]).2).dirty =
      some [(1, 0)] ∧
    (CompareAndDelete (runOps (emptyCache : Cache Nat Nat)
      [Op.store 1 5]).2 2 7).2.dirty = none := by
  constructor <;> decide

/-- C7 (amended): On the equality-comparable variant of a reachable
`Cache`, `CompareAndDelete(k, old)` returns true exactly when `k` is
present with current value equal to `old`, in which case a subsequent
`Load(k)` returns not-found; and the call never removes an individual key
from the write buffer: the dirty map is either left unchanged, or — when
the recorded miss reaches the promotion threshold — the entire write
buffer (still containing the key) is published as the new snapshot and
the dirty map becomes nil. -/
theorem c7_compareAndDelete {c : Cache K V} (hR : Reachable c) (k : K)
    (old : V) :
    ((CompareAndDelete c k old).1 = true ↔ absLookup c k = some old) ∧
    ((CompareAndDelete c k old).1 = true →
      (Load (CompareAndDelete c k old).2 k).1 = (default, false)) ∧
    ((CompareAndDelete c k old).2.dirty = c.dirty ∨
      ((CompareAndDelete c k old).2.dirty = none ∧
        (CompareAndDelete c k old).2.read =
          some ⟨c.dirty.getD [], false⟩)) := by
  have h := reachable_inv hR
  obtain ⟨h2, htrue, hfalse⟩ := cad_sim h k old
  refine ⟨?_, ?_, cad_dirty_frame c k old⟩
  · by_cases habs : absLookup c k = some old
    · exact ⟨fun _ => habs, fun _ => (htrue habs).1⟩
    · constructor
      · intro hx
        rw [(hfalse habs).1] at hx
        cases hx
      · intro hx
        exact absurd hx habs
  · intro hx
    by_cases habs : absLookup c k = some old
    · obtain ⟨e1, e2⟩ := htrue habs
      obtain ⟨g1, _, _⟩ := load_sim h2 k
      rw [g1, e2, specLoad_eq_none (by simp [specUpdate])]
    · rw [(hfalse habs).1] at hx
      cases hx

theorem c7_compareAndDelete_witness :
    (CompareAndDelete (runOps (emptyCache : Cache Nat Nat)
      [Op.store 1 5]).2 1 5).1 = true ∧
    (Load (CompareAndDelete (runOps (emptyCache : Cache Nat Nat)
      [Op.store 1 5]).2 1 5).2 1).1 = (0, false) := by
  have h := c7_compareAndDelete
    (c := (runOps (emptyCache : Cache Nat Nat) [Op.store 1 5]).2)
    ⟨[Op.store 1 5], rfl⟩ 1 5
  have ht := h.1.mpr (by decide)
  exact ⟨ht, h.2.1 ht⟩

/-- C8: If the current snapshot is amended, `Range` first promotes the
write buffer to become the new snapshot (after the call the snapshot is
unamended, the write buffer is nil and the miss counter is 0) and then
iterates that promoted snapshot; with a pure visitor (no writes during
the call) that never stops early, every key present before the call with
a live (boxed-value) slot is visited exactly once (membership in the
visit trace coincides with the abstract contents, and the trace's keys
are duplicate-free); and iteration stops as soon as the visitor returns
false (every visited pair except possibly the last satisfied the
visitor). -/
theorem c8_range_promotes_and_visits {c : Cache K V} (hR : Reachable c)
    (f : K → V → Bool) :
    (readAmended c = true →
      readM (Range c f).2 = c.dirty.getD [] ∧
      readAmended (Range c f).2 = false ∧
      (Range c f).2.dirty = none ∧
      (Range c f).2.misses = 0) ∧
    ((∀ k v, f k v = true) →
      (∀ k v, ((k, v) ∈ (Range c f).1 ↔ absLookup c k = some v)) ∧
      ((Range c f).1.map Prod.fst).Nodup) ∧
    (∀ p ∈ (Range c f).1.dropLast, f p.1 p.2 = true) := by
  have h := reachable_inv hR
  cases hams : readAmended c with
  | true =>
    obtain ⟨d, hd⟩ := h.dirty_some_of_amended hams
    have hgd : c.dirty.getD [] = d := by rw [hd]; rfl
    have hL : Range c f =
        (rangeLoop (promoteCache c d) f d, promoteCache c d) := by
      simp only [Range, hams, if_true, hgd]
      rfl
    rw [hL]
    refine ⟨?_, ?_, ?_⟩
    · intro _
      refine ⟨?_, rfl, rfl, rfl⟩
      rw [readM_promote, hgd]
    · intro hf
      constructor
      · intro k v
        rw [rangeLoop_mem hf]
        exact mem_dirty_abs h hd k v
      · exact (h.dirtyNodup d hd).sublist
          (rangeLoop_keys_sublist (promoteCache c d) f d)
    · exact rangeLoop_stops (promoteCache c d) f d
  | false =>
    have hd := h.dirty_none_of_unamended hams
    have hL : Range c f = (rangeLoop c f (readM c), c) := by
      simp only [Range, hams, Bool.false_eq_true, if_false]
      rfl
    rw [hL]
    refine ⟨?_, ?_, ?_⟩
    · intro hx
      simp at hx
    · intro hf
      constructor
      · intro k v
        rw [rangeLoop_mem hf]
        exact mem_readM_abs h hd k v
      · exact h.readNodup.sublist (rangeLoop_keys_sublist c f (readM c))
    · exact rangeLoop_stops c f (readM c)

theorem c8_range_promotes_and_visits_witness :
    readM (Range (runOps (emptyCache : Cache Nat Nat)
      [Op.store 1 5]).2 (fun _ _ => true)).2 = [(1, 0)] ∧
    (1, 5) ∈ (Range (runOps (emptyCache : Cache Nat Nat)
      [Op.store 1 5]).2 (fun _ _ => true)).1 := by
  have h := c8_range_promotes_and_visits
    (c := (runOps (emptyCache : Cache Nat Nat) [Op.store 1 5]).2)
    ⟨[Op.store 1 5], rfl⟩ (fun _ _ => true)
  constructor
  · have h1 := (h.1 (by decide)).1
    rw [h1]
    decide
  · exact ((h.2.1 (fun _ _ => rfl)).1 1 5).mpr (by decide)

/-- C10: On a zero-value `Cache` (nil snapshot pointer, nil write buffer,
zero miss counter), every public operation behaves as on an empty map:
`Load` and `LoadAndDelete` return (zero value, false), `CompareAndSwap`
and `CompareAndDelete` return false, `Range` never invokes its visitor,
and a first `Store(k, v)` establishes the mapping so that `Load(k)`
subsequently returns `(v, true)` — no explicit initialization is
required before use. -/
theorem c10_zero_value_ready (k : K) (v old nw : V) (f : K → V → Bool) :
    (Load (emptyCache : Cache K V) k).1 = (default, false) ∧
    (LoadAndDelete (emptyCache : Cache K V) k).1 = (default, false) ∧
    (CompareAndSwap (emptyCache : Cache K V) k old nw).1 = false ∧
    (CompareAndDelete (emptyCache : Cache K V) k old).1 = false ∧
    (Range (emptyCache : Cache K V) f).1 = [] ∧
    (Load (Store (emptyCache : Cache K V) k v) k).1 = (v, true) := by
  refine ⟨rfl, rfl, rfl, rfl, rfl, ?_⟩
  have h := inv_empty (K := K) (V := V)
  obtain ⟨_, h2, h3⟩ := swap_sim h k v
  show (Load (Swap (emptyCache : Cache K V) k v).2 k).1 = (v, true)
  obtain ⟨g1, _, _⟩ := load_sim h2 k
  rw [g1, h3, specLoad_eq_some (v := v) (by simp [specUpdate])]

end GoCache
